import Mathlib

/-!
# Verification of the audio segmentation engine (`src/main.py`, class `AudioSplitter`)

A shallow embedding of the segmentation engine of the audio splitting tool.
Python floats are modelled by exact rationals (`ℚ`); sample buffers by
`List ℚ`; the file system side effects of the engine (creating the output
directory, writing one file per segment) are recorded in the result value
instead of being performed.

Python numeric primitives used by the source:
* `int(x)` truncates toward zero (`pyTrunc`);
* `round(x)` rounds half to even (`pyRound`);
* `a // b` on non-negative ints is floor division (`Nat` division);
* `range(lo, hi, step)` enumerates `lo, lo+step, ...` strictly below `hi`;
* list slicing `xs[a:b]` (for `0 ≤ a ≤ b`) clamps at the end of the list.
-/

namespace AudioSplit

/-- Python `int(x)`: truncation toward zero. -/
def pyTrunc (q : ℚ) : ℤ :=
  if 0 ≤ q then ⌊q⌋ else ⌈q⌉

/-- Python `round(x)`: round half to even (banker's rounding). -/
def pyRound (q : ℚ) : ℤ :=
  if q - ⌊q⌋ = 1/2 then (if (⌊q⌋ : ℤ) % 2 = 0 then ⌊q⌋ else ⌊q⌋ + 1) else round q

/-- Python slice `xs[a:b]` for `0 ≤ a ≤ b` (end clamped at the list length). -/
def pySlice {α : Type} (xs : List α) (a b : ℕ) : List α :=
  (xs.drop a).take (b - a)

theorem pyTrunc_of_nonneg {q : ℚ} (h : 0 ≤ q) : pyTrunc q = ⌊q⌋ := by
  simp [pyTrunc, h]

theorem pyRound_intCast (z : ℤ) : pyRound (z : ℚ) = z := by
  simp [pyRound]

theorem floor_le_pyRound (q : ℚ) : ⌊q⌋ ≤ pyRound q := by
  unfold pyRound
  split
  · split <;> omega
  · rw [round_eq]
    exact Int.floor_le_floor (by linarith)

theorem pyRound_le_ceil (q : ℚ) : pyRound q ≤ ⌈q⌉ := by
  unfold pyRound
  split
  · rename_i h
    have hq : q = (⌊q⌋ : ℚ) + 1/2 := by linarith
    have h2 : ⌊q⌋ + 1 ≤ ⌈q⌉ := by
      by_contra hc
      push_neg at hc
      have hle : ⌈q⌉ ≤ ⌊q⌋ := by omega
      have := Int.le_ceil q
      have hfl : (⌈q⌉ : ℚ) ≤ (⌊q⌋ : ℚ) := by exact_mod_cast hle
      linarith
    split <;> omega
  · rw [round_eq]
    apply Int.le_of_sub_one_lt
    rw [Int.sub_one_lt_iff, Int.floor_le_iff]
    linarith [Int.le_ceil q]

theorem pyRound_le (q : ℚ) : (pyRound q : ℚ) ≤ q + 1/2 := by
  unfold pyRound
  split
  · rename_i h
    have hq : q = (⌊q⌋ : ℚ) + 1/2 := by linarith
    split <;> push_cast <;> linarith
  · rw [round_eq]
    calc ((⌊q + 1/2⌋ : ℤ) : ℚ) ≤ q + 1/2 := Int.floor_le _

theorem le_pyRound (q : ℚ) : q - 1/2 ≤ (pyRound q : ℚ) := by
  unfold pyRound
  split
  · rename_i h
    have hq : q = (⌊q⌋ : ℚ) + 1/2 := by linarith
    split <;> push_cast <;> linarith
  · rw [round_eq]
    linarith [Int.lt_floor_add_one (q + 1/2)]

/-- Python `range(0, stop, step)` for an integer `stop` and positive `step`:
the multiples of `step` strictly below `stop`. -/
def pyRange0 (stop : ℤ) (step : ℕ) : List ℕ :=
  if 0 < stop ∧ 0 < step then (List.range ((stop.toNat - 1) / step + 1)).map (· * step) else []

/-- `np.mean(window ** 2)`: the mean square of a window.  The source stores
`np.sqrt` of this value; since the square root is strictly monotone the first
minimum of the rms array is at the same index as the first minimum of the
mean-square array, so the embedding keeps the (rational) mean square and stays
executable.  The mean of an empty window is modelled as `0` (numpy produces
`nan`; in the one guarded situation where an empty window can occur — a zero
window length — every profile value is `nan` alike and `np.argmin` picks
index `0`, exactly as it picks index `0` among all-equal `0` values here). -/
def meanSq (l : List ℚ) : ℚ :=
  (l.map fun x => x * x).sum / (l.length : ℚ)

/-- `AudioSplitter.analyze_audio_volume` (src/main.py:42-71).
`window_samples = int(window_size * sample_rate)`,
`step_samples = max(1, window_samples // 4)`, and one `(time, value)` pair per
loop index `i` of `range(0, len(audio_data) - window_samples, step_samples)`,
with `time = i / sample_rate`.  Call sites always have `window_size ≥ 0`. -/
def analyzeAudioVolume (data : List ℚ) (sr : ℕ) (ws : ℚ) : List (ℚ × ℚ) :=
  let W : ℕ := (pyTrunc (ws * sr)).toNat
  let step : ℕ := max 1 (W / 4)
  (pyRange0 ((data.length : ℤ) - W) step).map
    (fun (i : ℕ) => ((i : ℚ) / (sr : ℚ), meanSq (pySlice data i (i + W))))

/-- Auxiliary loop for `np.argmin`: `idx` is the index of the head of the
remaining list, `best` the index of the least value seen so far (strict `<`
keeps the first occurrence of the minimum, as numpy does). -/
def argminAux : List ℚ → ℚ → ℕ → ℕ → ℕ
  | [], _, _, best => best
  | x :: xs, bv, idx, best =>
      if x < bv then argminAux xs x (idx + 1) idx else argminAux xs bv (idx + 1) best

/-- `np.argmin`: index of the first occurrence of the minimum. -/
def argminIdx : List ℚ → ℕ
  | [] => 0
  | x :: xs => argminAux xs x 1 0

theorem argminAux_lt (xs : List ℚ) : ∀ (bv : ℚ) (idx best : ℕ), best < idx →
    argminAux xs bv idx best < idx + xs.length := by
  induction xs with
  | nil => intro bv idx best h; simpa [argminAux] using h
  | cons x xs ih =>
      intro bv idx best h
      by_cases hx : x < bv
      · simp only [argminAux, if_pos hx, List.length_cons]
        have := ih x (idx + 1) idx (Nat.lt_succ_self idx)
        omega
      · simp only [argminAux, if_neg hx, List.length_cons]
        have := ih bv (idx + 1) best (by omega)
        omega

theorem argminIdx_lt {l : List ℚ} (h : l ≠ []) : argminIdx l < l.length := by
  match l with
  | [] => exact absurd rfl h
  | x :: xs =>
      simp only [argminIdx, List.length_cons]
      have := argminAux_lt xs x 1 0 Nat.one_pos
      omega

/-- Python slice stop index `data[a:b]` for a possibly negative `b`
(a negative stop counts from the end of the list). -/
def sliceStop (len : ℕ) (b : ℤ) : ℕ :=
  if b < 0 then ((len : ℤ) + b).toNat else b.toNat

/-- `AudioSplitter.find_optimal_split_point` (src/main.py:118-157): search a
window of width `search_range` around `target_time` for the profile point of
least volume, then snap the found time to the nearest sample boundary.  Falls
back to `target_time` when the search slice or its volume profile is empty. -/
def findOptimalSplitPoint (data : List ℚ) (sr : ℕ) (target r : ℚ) : ℚ :=
  let total : ℚ := (data.length : ℚ) / (sr : ℚ)
  let startT : ℚ := max 0 (target - r / 2)
  let endT : ℚ := min total (target + r / 2)
  let s : ℕ := (pyTrunc (startT * sr)).toNat
  let e : ℕ := sliceStop data.length (pyTrunc (endT * sr))
  let search := pySlice data s e
  if search = [] then target
  else
    let prof := analyzeAudioVolume search sr (1/100)
    if prof = [] then target
    else
      let idx := argminIdx (prof.map Prod.snd)
      let opt : ℚ := startT + (prof.map Prod.fst).getD idx 0
      ((pyRound (opt * sr) : ℤ) : ℚ) / (sr : ℚ)

/-- The result of one splitting request.  `ranges` holds the
`(start_sample, end_sample)` pair of every emitted segment, in emission
order (one output file is written per entry); `dirCreated` records whether
the run reached the `output_dir.mkdir` side effect. -/
structure SplitOutcome where
  success : Bool
  message : String
  dirCreated : Bool
  ranges : List (ℕ × ℕ)
  deriving Repr, DecidableEq

/-- Stand-in for Python's `f"{x:.1f}"` formatting.  The exact decimal
rendering is irrelevant to every claim (messages are only inspected for the
fixed text around the number), so the rational is printed directly. -/
def fmt1 (q : ℚ) : String := toString q

/-- One step of the boundary walk (the bodies of the planning loops at
src/main.py:281-295 and 371-384): in smart mode consult
`find_optimal_split_point`, otherwise snap `target` to the nearest sample. -/
def refineStep (data : List ℚ) (sr : ℕ) (smart : Bool) (r : ℚ) (target : ℚ) : ℚ :=
  if smart then findOptimalSplitPoint data sr target r
  else ((pyRound (target * sr) : ℤ) : ℚ) / (sr : ℚ)

/-- The fixed-mode planning loop: `k` further boundaries from position
`pos`, each the refinement of `pos + d`, the running position feeding the
next iteration. -/
def buildPoints (refine : ℚ → ℚ) (d : ℚ) : ℕ → ℚ → List ℚ
  | 0, _ => []
  | k + 1, pos =>
      let p := refine (pos + d)
      p :: buildPoints refine d k p

/-- The custom-mode planning loop: one boundary per requested duration,
the running position feeding the next iteration. -/
def buildPointsList (refine : ℚ → ℚ) : List ℚ → ℚ → List ℚ
  | [], _ => []
  | d :: rest, pos =>
      let p := refine (pos + d)
      p :: buildPointsList refine rest p

/-- `split_points` as computed by `_split_audio_fixed` (src/main.py:276-297):
`[0] ++ (num_segments - 1) walked boundaries ++ [total_duration]`. -/
def fixedSplitPoints (data : List ℚ) (sr : ℕ) (d : ℚ) (smart : Bool) (r : ℚ) : List ℚ :=
  let total : ℚ := (data.length : ℚ) / (sr : ℚ)
  let n : ℤ := ⌈total / d⌉
  (0 :: buildPoints (refineStep data sr smart r) d (n - 1).toNat 0) ++ [total]

/-- `split_points` as computed by `_split_audio_custom` (src/main.py:367-384):
`[0]` followed by one walked boundary per requested duration (the final
`total_duration` is not appended; the optional last segment is handled
separately). -/
def customSplitPoints (data : List ℚ) (sr : ℕ) (ds : List ℚ) (smart : Bool) (r : ℚ) : List ℚ :=
  0 :: buildPointsList (refineStep data sr smart r) ds 0

/-- The slicing step shared by both modes (src/main.py:300-310, 387-399):
for each consecutive boundary pair, `start_sample = round(start * sr)` and
`end_sample = min(round(end * sr), len(data))`. -/
def boundaryRanges (len sr : ℕ) (pts : List ℚ) : List (ℕ × ℕ) :=
  (pts.zip pts.tail).map
    (fun p => ((pyRound (p.1 * sr)).toNat, min (pyRound (p.2 * sr)).toNat len))

/-- `AudioSplitter._split_audio_fixed` (src/main.py:257-327). -/
def splitAudioFixed (data : List ℚ) (sr : ℕ) (d : ℚ) (smart : Bool) (r : ℚ) : SplitOutcome :=
  let total : ℚ := (data.length : ℚ) / (sr : ℚ)
  if total ≤ d then
    ⟨false, "分割时长大于或等于音频总时长", false, []⟩
  else if d = 0 then
    -- `math.ceil(total_duration / segment_duration)` raises ZeroDivisionError at
    -- src/main.py:263, caught by split_audio's try/except (src/main.py:211-212).
    ⟨false, "分割过程中发生错误: float division by zero", false, []⟩
  else
    let n : ℤ := ⌈total / d⌉
    let pts := fixedSplitPoints data sr d smart r
    let ranges := (boundaryRanges data.length sr pts).take n.toNat
    let splitType := if smart then "智能" else "固定"
    ⟨true, splitType ++ "分割完成！共生成 " ++ toString n ++ " 个文件", true, ranges⟩

/-- `AudioSplitter._split_audio_custom` (src/main.py:329-445). -/
def splitAudioCustom (data : List ℚ) (sr : ℕ) (ds : List ℚ) (smart : Bool) (r : ℚ) : SplitOutcome :=
  let total : ℚ := (data.length : ℚ) / (sr : ℚ)
  if ds = [] then
    ⟨false, "自定义长度数组不能为空", false, []⟩
  else
    match ds.findIdx? (fun d => decide (d ≤ 0)) with
    | some i => ⟨false, "第" ++ toString (i + 1) ++ "个长度必须大于0秒", false, []⟩
    | none =>
        let specified := ds.sum
        let lastDur := total - specified
        if total ≤ specified then
          ⟨false, "指定的总时长(" ++ fmt1 specified ++ "秒)大于或等于音频总时长(" ++
            fmt1 total ++ "秒)", false, []⟩
        else
          let createLast : Bool := decide (1 ≤ lastDur)
          let pts := customSplitPoints data sr ds smart r
          let ranges := (boundaryRanges data.length sr pts).take ds.length ++
            (if createLast then [((pyRound (pts.getLastD 0 * sr)).toNat, data.length)] else [])
          let splitType := if smart then "智能" else "自定义"
          let msg := splitType ++ "分割完成！共生成 " ++ toString ranges.length ++ " 个文件" ++
            (if createLast then "" else
              "（最后一段时长" ++ fmt1 lastDur ++ "秒，小于1秒，已跳过）")
          ⟨true, msg, true, ranges⟩

/-- Existence and format of the input file (checked by `split_audio` before
decoding; decoding itself is an external collaborator and assumed to yield
`data, sr`). -/
structure FileInfo where
  present : Bool
  supported : Bool

/-- `AudioSplitter.split_audio` (src/main.py:159-212): parameter validation,
file checks, then dispatch on the planning mode. -/
def splitAudio (file : FileInfo) (data : List ℚ) (sr : ℕ) (segDur : Option ℚ)
    (customDurs : Option (List ℚ)) (smart : Bool) (r : ℚ) : SplitOutcome :=
  match segDur, customDurs with
  | none, none => ⟨false, "必须指定分割时长或自定义长度数组", false, []⟩
  | some _, some _ => ⟨false, "不能同时指定固定时长和自定义长度", false, []⟩
  | none, some ds =>
      if file.present = false then ⟨false, "文件不存在", false, []⟩
      else if file.supported = false then
        ⟨false, "不支持的文件格式，仅支持MP3和WAV格式", false, []⟩
      else splitAudioCustom data sr ds smart r
  | some d, none =>
      if file.present = false then ⟨false, "文件不存在", false, []⟩
      else if file.supported = false then
        ⟨false, "不支持的文件格式，仅支持MP3和WAV格式", false, []⟩
      else splitAudioFixed data sr d smart r

/-- `AudioSplitter.split_audio_by_video_durations` (src/main.py:214-255):
validates the externally sourced duration list, then delegates to
`split_audio` in custom-duration mode.  (The Python unsupported-format
message also interpolates the file suffix; the fixed prefix is kept.) -/
def splitAudioByVideoDurations (file : FileInfo) (data : List ℚ) (sr : ℕ)
    (vds : List ℚ) (smart : Bool) (r : ℚ) : SplitOutcome :=
  if file.present = false then ⟨false, "音频文件不存在", false, []⟩
  else if file.supported = false then ⟨false, "不支持的音频格式", false, []⟩
  else if vds = [] then ⟨false, "视频时长列表不能为空", false, []⟩
  else
    match vds.findIdx? (fun d => decide (d ≤ 0)) with
    | some i => ⟨false, "第" ++ toString (i + 1) ++ "个视频时长必须大于0秒", false, []⟩
    | none => splitAudio file data sr none (some vds) smart r

/-- The sample data of every emitted segment, in emission order. -/
def segData (data : List ℚ) (o : SplitOutcome) : List (List ℚ) :=
  o.ranges.map (fun p => pySlice data p.1 p.2)

/-- Concatenation of all emitted segments. -/
def concatSegs (data : List ℚ) (o : SplitOutcome) : List ℚ :=
  (segData data o).flatten

/-- Total number of samples across all emitted segments. -/
def emittedSamples (data : List ℚ) (o : SplitOutcome) : ℕ :=
  (concatSegs data o).length

/-! ## Generic slicing lemmas -/

theorem pySlice_length {α : Type} (xs : List α) (a b : ℕ) :
    (pySlice xs a b).length = min (b - a) (xs.length - a) := by
  simp [pySlice]

theorem pySlice_clamp {α : Type} (xs : List α) (a b : ℕ) :
    pySlice xs a b = pySlice xs (min a xs.length) (min b xs.length) := by
  unfold pySlice
  rcases le_or_lt a xs.length with h | h
  · rw [min_eq_left h]
    rcases le_or_lt b xs.length with hb | hb
    · rw [min_eq_left hb]
    · rw [min_eq_right hb.le]
      have hlen : (xs.drop a).length = xs.length - a := List.length_drop a xs
      rw [List.take_of_length_le (by omega), List.take_of_length_le (by omega)]
  · rw [min_eq_right h.le, List.drop_eq_nil_of_le h.le, List.drop_eq_nil_of_le le_rfl]
    simp

/-- The slicing walk: one clamped slice per consecutive pair of sample cuts,
starting at cut `a`. -/
def sliceWalk {α : Type} (data : List α) : ℕ → List ℕ → List α
  | _, [] => []
  | a, b :: rest => pySlice data a (min b data.length) ++ sliceWalk data b rest

theorem sliceWalk_eq_drop {α : Type} (data : List α) :
    ∀ (cs : List ℕ) (a : ℕ),
    List.Chain (fun x y => min x data.length ≤ min y data.length) a cs →
    data.length ≤ cs.getLastD a →
    sliceWalk data a cs = data.drop (min a data.length) := by
  intro cs
  induction cs with
  | nil =>
      intro a _ hlast
      simp only [List.getLastD_nil] at hlast
      simp [sliceWalk, min_eq_right hlast, List.drop_eq_nil_of_le le_rfl]
  | cons b rest ih =>
      intro a hchain hlast
      rcases hchain with _ | ⟨hab, hrest⟩
      simp only [List.getLastD_cons] at hlast
      have hIH := ih b hrest hlast
      simp only [sliceWalk, hIH]
      rw [pySlice_clamp data a (min b data.length),
        min_eq_left (min_le_right b data.length)]
      set a' := min a data.length with ha'
      set b' := min b data.length with hb'
      unfold pySlice
      have hd : (data.drop a').drop (b' - a') = data.drop b' := by
        rw [List.drop_drop]
        congr 1
        omega
      calc (data.drop a').take (b' - a') ++ data.drop b'
        = (data.drop a').take (b' - a') ++ (data.drop a').drop (b' - a') := by rw [hd]
      _ = data.drop a' := List.take_append_drop _ _

/-- The emitted segments of a boundary-range list, flattened, equal the
slicing walk along the underlying sample cuts. -/
theorem flatten_pairSlices {α : Type} (data : List α) :
    ∀ (cs : List ℕ) (a : ℕ),
    ((((a :: cs).zip cs).map
      (fun p => pySlice data p.1 (min p.2 data.length)))).flatten =
    sliceWalk data a cs := by
  intro cs
  induction cs with
  | nil => intro a; simp [sliceWalk]
  | cons b rest ih =>
      intro a
      simp only [List.zip_cons_cons, List.map_cons, List.flatten_cons, sliceWalk]
      rw [ih b]

theorem sliceWalk_append_singleton {α : Type} (data : List α) :
    ∀ (cs : List ℕ) (a b : ℕ),
    sliceWalk data a (cs ++ [b]) =
      sliceWalk data a cs ++ pySlice data (cs.getLastD a) (min b data.length) := by
  intro cs
  induction cs with
  | nil => intro a b; simp [sliceWalk]
  | cons c rest ih =>
      intro a b
      simp only [List.cons_append, sliceWalk, List.getLastD_cons, List.append_assoc]
      congr 1
      exact ih c b

theorem chain_concat {α : Type} {R : α → α → Prop} :
    ∀ (cs : List α) (a b : α), List.Chain R a cs → R (cs.getLastD a) b →
    List.Chain R a (cs ++ [b]) := by
  intro cs
  induction cs with
  | nil => intro a b _ h; simpa using List.Chain.cons (by simpa using h) List.Chain.nil
  | cons c rest ih =>
      intro a b hchain hlast
      rcases hchain with _ | ⟨hac, hrest⟩
      simp only [List.getLastD_cons] at hlast
      exact List.Chain.cons hac (ih c b hrest hlast)

/-! ## Sample cuts of a boundary list -/

/-- The start-sample cut of every boundary of a plan (the slicing step's
`round(time * sample_rate)`). -/
def planCuts (sr : ℕ) (pts : List ℚ) : List ℕ :=
  pts.map (fun p => (pyRound (p * sr)).toNat)

/-- The full cut sequence a request slices along: the plan's cuts, plus the
implicit final cut at the end of the buffer in custom mode. -/
def requestCuts (data : List ℚ) (sr : ℕ) (segDur : Option ℚ)
    (customDurs : Option (List ℚ)) (smart : Bool) (r : ℚ) : List ℕ :=
  match segDur, customDurs with
  | some d, none => planCuts sr (fixedSplitPoints data sr d smart r)
  | none, some ds => planCuts sr (customSplitPoints data sr ds smart r) ++ [data.length]
  | _, _ => []

theorem cast_div_mul_cancel {sr : ℕ} (hsr : 0 < sr) (z : ℤ) :
    ((z : ℚ) / (sr : ℚ)) * (sr : ℚ) = (z : ℚ) := by
  have : (sr : ℚ) ≠ 0 := by positivity
  field_simp

/-- The snapped boundary `round(t * sr) / sr` has `round(· * sr)` equal to
the integer it was snapped to. -/
theorem cut_of_snap {sr : ℕ} (hsr : 0 < sr) (z : ℤ) :
    pyRound (((z : ℚ) / (sr : ℚ)) * (sr : ℚ)) = z := by
  rw [cast_div_mul_cancel hsr, pyRound_intCast]

theorem buildPoints_length (refine : ℚ → ℚ) (d : ℚ) :
    ∀ (k : ℕ) (pos : ℚ), (buildPoints refine d k pos).length = k := by
  intro k
  induction k with
  | zero => intro pos; rfl
  | succ k ih => intro pos; simp [buildPoints, ih]

theorem buildPointsList_length (refine : ℚ → ℚ) :
    ∀ (ds : List ℚ) (pos : ℚ), (buildPointsList refine ds pos).length = ds.length := by
  intro ds
  induction ds with
  | nil => intro pos; rfl
  | cons d rest ih => intro pos; simp [buildPointsList, ih]

/-- In non-smart mode, starting from a sample-aligned position `m / sr`, the
integer cuts of the walked boundaries form a nondecreasing chain from `m`. -/
theorem chain_cut_buildPoints (data : List ℚ) (sr : ℕ) (hsr : 0 < sr) (r : ℚ)
    (d : ℚ) (hd : 0 ≤ d) :
    ∀ (k : ℕ) (m : ℤ),
    List.Chain (· ≤ ·) m
      ((buildPoints (refineStep data sr false r) d k ((m : ℚ) / (sr : ℚ))).map
        (fun p => pyRound (p * sr))) := by
  intro k
  induction k with
  | zero => intro m; exact List.Chain.nil
  | succ k ih =>
      intro m
      have hsrq : (0 : ℚ) ≤ (sr : ℚ) := by positivity
      have harg : ((m : ℚ) / (sr : ℚ) + d) * (sr : ℚ) = (m : ℚ) + d * sr := by
        rw [add_mul, cast_div_mul_cancel hsr]
      set m2 : ℤ := pyRound ((m : ℚ) + d * sr) with hm2
      have hstep : refineStep data sr false r ((m : ℚ) / (sr : ℚ) + d) =
          ((m2 : ℚ) / (sr : ℚ)) := by
        simp only [refineStep, if_neg (Bool.false_ne_true)]
        rw [harg]
      have hle : m ≤ m2 := by
        have h1 : ⌊(m : ℚ) + d * sr⌋ ≤ m2 := floor_le_pyRound _
        have h2 : ⌊(m : ℚ) + d * sr⌋ = ⌊d * sr⌋ + m := by
          rw [add_comm]; exact Int.floor_add_int _ _
        have h3 : (0 : ℤ) ≤ ⌊d * sr⌋ := Int.floor_nonneg.mpr (by positivity)
        omega
      simp only [buildPoints, hstep, List.map_cons]
      rw [cut_of_snap hsr m2]
      exact List.Chain.cons hle (ih m2)

/-- Custom-mode analogue of `chain_cut_buildPoints`: all durations
non-negative gives a nondecreasing integer cut chain. -/
theorem chain_cut_buildPointsList (data : List ℚ) (sr : ℕ) (hsr : 0 < sr) (r : ℚ) :
    ∀ (ds : List ℚ), (∀ x ∈ ds, 0 ≤ x) → ∀ (m : ℤ),
    List.Chain (· ≤ ·) m
      ((buildPointsList (refineStep data sr false r) ds ((m : ℚ) / (sr : ℚ))).map
        (fun p => pyRound (p * sr))) := by
  intro ds
  induction ds with
  | nil => intro _ m; exact List.Chain.nil
  | cons d rest ih =>
      intro hpos m
      have hd : 0 ≤ d := hpos d (List.mem_cons_self d rest)
      have harg : ((m : ℚ) / (sr : ℚ) + d) * (sr : ℚ) = (m : ℚ) + d * sr := by
        rw [add_mul, cast_div_mul_cancel hsr]
      set m2 : ℤ := pyRound ((m : ℚ) + d * sr) with hm2
      have hstep : refineStep data sr false r ((m : ℚ) / (sr : ℚ) + d) =
          ((m2 : ℚ) / (sr : ℚ)) := by
        simp only [refineStep, if_neg (Bool.false_ne_true)]
        rw [harg]
      have hle : m ≤ m2 := by
        have h1 : ⌊(m : ℚ) + d * sr⌋ ≤ m2 := floor_le_pyRound _
        have h2 : ⌊(m : ℚ) + d * sr⌋ = ⌊d * sr⌋ + m := by
          rw [add_comm]; exact Int.floor_add_int _ _
        have h3 : (0 : ℤ) ≤ ⌊d * sr⌋ := Int.floor_nonneg.mpr (by positivity)
        omega
      simp only [buildPointsList, hstep, List.map_cons]
      rw [cut_of_snap hsr m2]
      exact List.Chain.cons hle (ih (fun x hx => hpos x (List.mem_cons_of_mem d hx)) m2)

/-- A nondecreasing integer chain clamps to a nondecreasing chain of
clamped natural cuts. -/
theorem chain_min_of_chain_int (len : ℕ) :
    ∀ (cs : List ℤ) (a : ℤ), List.Chain (· ≤ ·) a cs →
    List.Chain (fun x y => min x len ≤ min y len) a.toNat (cs.map Int.toNat) := by
  intro cs
  induction cs with
  | nil => intro a _; exact List.Chain.nil
  | cons b rest ih =>
      intro a hchain
      rcases hchain with _ | ⟨hab, hrest⟩
      refine List.Chain.cons ?_ (ih b hrest)
      have := Int.toNat_le_toNat hab
      omega

/-! ## Assembly: emitted segments as a slicing walk -/

theorem boundaryRanges_eq_zip (len sr : ℕ) (pts : List ℚ) :
    boundaryRanges len sr pts =
      ((planCuts sr pts).zip (planCuts sr pts).tail).map
        (fun p => (p.1, min p.2 len)) := by
  unfold boundaryRanges planCuts
  rw [← List.map_tail, List.zip_map, List.map_map]
  rfl

theorem planCuts_length (sr : ℕ) (pts : List ℚ) :
    (planCuts sr pts).length = pts.length := List.length_map _ _

/-- Flattening the slices of all boundary ranges is the slicing walk along
the plan's cuts. -/
theorem flatten_boundaryRanges (data : List ℚ) (sr : ℕ) (pts : List ℚ)
    (c0 : ℕ) (cs : List ℕ) (h : planCuts sr pts = c0 :: cs) :
    ((boundaryRanges data.length sr pts).map
      (fun p => pySlice data p.1 p.2)).flatten = sliceWalk data c0 cs := by
  rw [boundaryRanges_eq_zip, h, List.map_map]
  have : (c0 :: cs).tail = cs := rfl
  rw [this]
  exact flatten_pairSlices data cs c0

/-- The head cut of any plan starting at boundary `0` is sample `0`. -/
theorem planCuts_cons_zero (sr : ℕ) (pts : List ℚ) :
    planCuts sr (0 :: pts) = 0 :: planCuts sr pts := by
  simp [planCuts, pyRound_intCast]
  norm_num [pyRound]

/-- The cut of the `total_duration` boundary is the end of the buffer. -/
theorem cut_total (len sr : ℕ) (hsr : 0 < sr) :
    (pyRound (((len : ℚ) / (sr : ℚ)) * (sr : ℚ))).toNat = len := by
  have h : ((len : ℚ) / (sr : ℚ)) * (sr : ℚ) = ((len : ℤ) : ℚ) / (sr : ℚ) * (sr : ℚ) := by
    norm_num
  rw [h, cut_of_snap hsr]
  simp

/-- Order on cuts after clamping to the buffer end: the order in which the
slicing step actually consumes them. -/
def cutRel (len : ℕ) (x y : ℕ) : Prop := min x len ≤ min y len

instance (len : ℕ) : DecidableRel (cutRel len) := fun a b => by
  unfold cutRel; infer_instance

theorem planCuts_append (sr : ℕ) (l1 l2 : List ℚ) :
    planCuts sr (l1 ++ l2) = planCuts sr l1 ++ planCuts sr l2 := List.map_append _ _ _

/-- Non-smart planning produces a plan whose clamped cuts are nondecreasing
(fixed mode). -/
theorem fixed_chain_nonsmart (data : List ℚ) (sr : ℕ) (hsr : 0 < sr) (d r : ℚ)
    (hd : 0 ≤ d) :
    List.Chain' (cutRel data.length) (planCuts sr (fixedSplitPoints data sr d false r)) := by
  unfold fixedSplitPoints
  rw [List.cons_append, planCuts_cons_zero, planCuts_append]
  show List.Chain (cutRel data.length) 0 _
  apply chain_concat
  · have h0 : (0 : ℚ) = ((0 : ℤ) : ℚ) / (sr : ℚ) := by simp
    have hch := chain_cut_buildPoints data sr hsr r d hd
      (((⌈(data.length : ℚ) / (sr : ℚ) / d⌉ : ℤ) - 1).toNat) 0
    rw [← h0] at hch
    have hmin := chain_min_of_chain_int data.length _ _ hch
    rw [List.map_map] at hmin
    exact hmin
  · show cutRel _ _ ((pyRound ((data.length : ℚ) / (sr : ℚ) * (sr : ℚ))).toNat)
    unfold cutRel
    rw [cut_total data.length sr hsr]
    omega

/-- If a split plan starts at `0`, ends at `total_duration`, and its clamped
cuts are nondecreasing, then the emitted segments of the fixed-mode slicing
loop concatenate back to the entire buffer. -/
theorem fixed_reconstruct (data : List ℚ) (sr : ℕ) (hsr : 0 < sr) (d r : ℚ)
    (smart : Bool) (hd : 0 < d) (hdt : d < (data.length : ℚ) / (sr : ℚ))
    (hchain : List.Chain' (cutRel data.length)
      (planCuts sr (fixedSplitPoints data sr d smart r))) :
    concatSegs data (splitAudioFixed data sr d smart r) = data := by
  have hne : ¬ ((data.length : ℚ) / (sr : ℚ) ≤ d) := not_le.mpr hdt
  have hd0 : ¬ (d = 0) := ne_of_gt hd
  have htpos : 0 < (data.length : ℚ) / (sr : ℚ) := lt_trans hd hdt
  have hn1 : (1 : ℤ) ≤ ⌈(data.length : ℚ) / (sr : ℚ) / d⌉ :=
    Int.ceil_pos.mpr (div_pos htpos hd)
  set n : ℤ := ⌈(data.length : ℚ) / (sr : ℚ) / d⌉ with hn
  set pts := fixedSplitPoints data sr d smart r with hpts
  have hlen : pts.length = (n - 1).toNat + 2 := by
    simp [hpts, fixedSplitPoints, buildPoints_length, ← hn]
  have hcuts : ∃ cs : List ℕ, planCuts sr pts = 0 :: cs ∧
      cs.getLastD 0 = data.length := by
    refine ⟨planCuts sr (buildPoints (refineStep data sr smart r) d (n - 1).toNat 0 ++
      [(data.length : ℚ) / (sr : ℚ)]), ?_, ?_⟩
    · rw [hpts]
      unfold fixedSplitPoints
      rw [List.cons_append, planCuts_cons_zero, ← hn]
    · rw [planCuts_append]
      unfold planCuts
      simp only [List.map_cons, List.map_nil, List.getLastD_concat]
      exact cut_total data.length sr hsr
  obtain ⟨cs, hcs, hlast⟩ := hcuts
  have hranges : (splitAudioFixed data sr d smart r).ranges =
      boundaryRanges data.length sr pts := by
    simp only [splitAudioFixed, if_neg hne, if_neg hd0]
    have hblen : (boundaryRanges data.length sr pts).length = n.toNat := by
      unfold boundaryRanges
      rw [List.length_map, List.length_zip, List.length_tail, hlen]
      omega
    exact List.take_of_length_le (le_of_eq hblen)
  have hwalk : concatSegs data (splitAudioFixed data sr d smart r) =
      sliceWalk data 0 cs := by
    unfold concatSegs segData
    rw [hranges]
    exact flatten_boundaryRanges data sr pts 0 cs hcs
  rw [hwalk]
  have hchain' : List.Chain (cutRel data.length) 0 cs := by
    rw [hcs] at hchain
    exact hchain
  have := sliceWalk_eq_drop data cs 0 hchain' (le_of_eq hlast.symm)
  simpa using this

theorem getLastD_map {α β : Type} (f : α → β) :
    ∀ (l : List α) (a : α), (l.map f).getLastD (f a) = f (l.getLastD a) := by
  intro l
  induction l with
  | nil => intro a; rfl
  | cons x xs ih => intro a; simp only [List.map_cons, List.getLastD_cons, ih x]

/-- Non-smart planning produces a plan whose clamped cuts are nondecreasing
(custom mode, with the implicit final cut at the end of the buffer). -/
theorem custom_chain_nonsmart (data : List ℚ) (sr : ℕ) (hsr : 0 < sr) (r : ℚ)
    (ds : List ℚ) (hpos : ∀ x ∈ ds, 0 ≤ x) :
    List.Chain' (cutRel data.length)
      (planCuts sr (customSplitPoints data sr ds false r) ++ [data.length]) := by
  unfold customSplitPoints
  rw [planCuts_cons_zero, List.cons_append]
  show List.Chain (cutRel data.length) 0 _
  apply chain_concat
  · have h0 : (0 : ℚ) = ((0 : ℤ) : ℚ) / (sr : ℚ) := by simp
    have hch := chain_cut_buildPointsList data sr hsr r ds hpos 0
    rw [← h0] at hch
    have hmin := chain_min_of_chain_int data.length _ _ hch
    rw [List.map_map] at hmin
    exact hmin
  · show cutRel _ _ _
    unfold cutRel
    omega

theorem findIdx?_eq_none_of_pos (ds : List ℚ) (hpos : ∀ x ∈ ds, 0 < x) :
    ds.findIdx? (fun d => decide (d ≤ 0)) = none := by
  rw [List.findIdx?_eq_none_iff]
  intro x hx
  simpa using hpos x hx

/-- If every requested duration is positive, their sum leaves at least one
second of trailing remainder, and the plan's clamped cuts (with the final
buffer-end cut) are nondecreasing, then the custom-mode slicing loop's
segments concatenate back to the entire buffer. -/
theorem custom_reconstruct (data : List ℚ) (sr : ℕ) (_hsr : 0 < sr) (r : ℚ)
    (ds : List ℚ) (smart : Bool) (hne : ds ≠ [])
    (hpos : ∀ x ∈ ds, 0 < x)
    (hrem : 1 ≤ (data.length : ℚ) / (sr : ℚ) - ds.sum)
    (hchain : List.Chain' (cutRel data.length)
      (planCuts sr (customSplitPoints data sr ds smart r) ++ [data.length])) :
    concatSegs data (splitAudioCustom data sr ds smart r) = data := by
  have hsum : ds.sum < (data.length : ℚ) / (sr : ℚ) := by linarith
  have hfind := findIdx?_eq_none_of_pos ds hpos
  have hnsum : ¬ ((data.length : ℚ) / (sr : ℚ) ≤ ds.sum) := not_le.mpr hsum
  have hcl : decide (1 ≤ (data.length : ℚ) / (sr : ℚ) - ds.sum) = true :=
    decide_eq_true hrem
  set pts := customSplitPoints data sr ds smart r with hpts
  have hptslen : pts.length = ds.length + 1 := by
    simp [hpts, customSplitPoints, buildPointsList_length]
  have hranges : (splitAudioCustom data sr ds smart r).ranges =
      boundaryRanges data.length sr pts ++
        [((pyRound (pts.getLastD 0 * sr)).toNat, data.length)] := by
    simp only [splitAudioCustom, if_neg hne, hfind, if_neg hnsum, hcl, if_true]
    congr 1
    have hblen : (boundaryRanges data.length sr pts).length = ds.length := by
      unfold boundaryRanges
      rw [List.length_map, List.length_zip, List.length_tail, hptslen]
      omega
    exact List.take_of_length_le (le_of_eq hblen)
  obtain ⟨cs, hcs⟩ : ∃ cs : List ℕ, planCuts sr pts = 0 :: cs := by
    refine ⟨planCuts sr (buildPointsList (refineStep data sr smart r) ds 0), ?_⟩
    rw [hpts]
    unfold customSplitPoints
    rw [planCuts_cons_zero]
  have hcm : (pyRound (pts.getLastD 0 * sr)).toNat = cs.getLastD 0 := by
    have h1 : (planCuts sr pts).getLastD ((pyRound ((0 : ℚ) * sr)).toNat) =
        (pyRound (pts.getLastD 0 * sr)).toNat :=
      getLastD_map (fun p => (pyRound (p * sr)).toNat) pts 0
    rw [hcs] at h1
    have h2 : (pyRound ((0 : ℚ) * sr)).toNat = 0 := by
      rw [zero_mul, show ((0 : ℚ)) = ((0 : ℤ) : ℚ) by norm_num, pyRound_intCast]
      rfl
    rw [h2] at h1
    rw [← h1, List.getLastD_cons]
  have hflat : concatSegs data (splitAudioCustom data sr ds smart r) =
      sliceWalk data 0 (cs ++ [data.length]) := by
    unfold concatSegs segData
    rw [hranges, List.map_append, List.flatten_append]
    rw [flatten_boundaryRanges data sr pts 0 cs hcs]
    rw [sliceWalk_append_singleton data cs 0 data.length]
    simp only [List.map_cons, List.map_nil, List.flatten_cons, List.flatten_nil,
      List.append_nil, hcm, min_self]
  rw [hflat]
  have hchain' : List.Chain (cutRel data.length) 0 (cs ++ [data.length]) := by
    rw [hcs, List.cons_append] at hchain
    exact hchain
  have hlast : data.length ≤ (cs ++ [data.length]).getLastD 0 := by
    rw [List.getLastD_concat]
  have := sliceWalk_eq_drop data (cs ++ [data.length]) 0 hchain' hlast
  simpa using this

/-! ## Claim C1 -/

/-- **C1** (amended).  For every successful split request whose planned
durations are all positive and whose trailing remainder segment is retained
(fixed mode always retains it; custom mode retains it when the remainder is
at least 1.0 s), concatenating the emitted segments' sample ranges in
boundary order reconstructs the original buffer exactly — with `smart =
false` unconditionally, and with `smart = true` whenever the plan's clamped
sample cuts are nondecreasing.  (As stated the claim is false: a successful
custom request whose sub-second trailing remainder is dropped omits those
samples, and a smart plan with non-monotone cuts can emit duplicates —
see the counterexample.) -/
theorem C1_reconstruction (file : FileInfo) (data : List ℚ) (sr : ℕ) (hsr : 0 < sr)
    (segDur : Option ℚ) (customDurs : Option (List ℚ)) (smart : Bool) (r : ℚ)
    (hfixed : ∀ d, segDur = some d → 0 < d)
    (hcustom : ∀ ds, customDurs = some ds →
      (∀ x ∈ ds, 0 < x) ∧ 1 ≤ (data.length : ℚ) / (sr : ℚ) - ds.sum)
    (hsuccess : (splitAudio file data sr segDur customDurs smart r).success = true)
    (hchain : smart = true → List.Chain' (cutRel data.length)
      (requestCuts data sr segDur customDurs smart r)) :
    concatSegs data (splitAudio file data sr segDur customDurs smart r) = data := by
  match hseg : segDur, hcust : customDurs with
  | none, none => exact absurd hsuccess (by simp [splitAudio])
  | some d, some ds => exact absurd hsuccess (by simp [splitAudio])
  | some d, none =>
      by_cases hp : file.present = false
      · exact absurd hsuccess (by simp [splitAudio, hp])
      · by_cases hs : file.supported = false
        · exact absurd hsuccess (by simp [splitAudio, hp, hs])
        · have heq : splitAudio file data sr (some d) none smart r =
              splitAudioFixed data sr d smart r := by
            simp [splitAudio, hp, hs]
          rw [heq] at hsuccess ⊢
          have hd : 0 < d := hfixed d rfl
          have hdt : d < (data.length : ℚ) / (sr : ℚ) := by
            by_contra hc
            push_neg at hc
            rw [show splitAudioFixed data sr d smart r =
              ⟨false, "分割时长大于或等于音频总时长", false, []⟩ by
                simp [splitAudioFixed, hc]] at hsuccess
            exact absurd hsuccess (by simp)
          apply fixed_reconstruct data sr hsr d r smart hd hdt
          cases smart with
          | false => exact fixed_chain_nonsmart data sr hsr d r hd.le
          | true => exact hchain rfl
  | none, some ds =>
      by_cases hp : file.present = false
      · exact absurd hsuccess (by simp [splitAudio, hp])
      · by_cases hs : file.supported = false
        · exact absurd hsuccess (by simp [splitAudio, hp, hs])
        · have heq : splitAudio file data sr none (some ds) smart r =
              splitAudioCustom data sr ds smart r := by
            simp [splitAudio, hp, hs]
          rw [heq] at hsuccess ⊢
          obtain ⟨hpos, hrem⟩ := hcustom ds rfl
          have hne : ds ≠ [] := by
            intro hnil
            rw [show splitAudioCustom data sr ds smart r =
              ⟨false, "自定义长度数组不能为空", false, []⟩ by
                simp [splitAudioCustom, hnil]] at hsuccess
            exact absurd hsuccess (by simp)
          apply custom_reconstruct data sr hsr r ds smart hne hpos hrem
          cases smart with
          | false => exact custom_chain_nonsmart data sr hsr r ds (fun x hx => (hpos x hx).le)
          | true => exact hchain rfl

set_option maxRecDepth 10000 in
unseal Rat.add Rat.mul Rat.inv Rat.sub in
/-- **C1** counterexample: the request `custom_durations = [2.5]` on a
3-sample buffer at 1 Hz succeeds but drops its 0.5 s trailing remainder,
so the emitted segments concatenate to only the first two samples — the
original buffer is not reconstructed. -/
theorem C1_counterexample :
    (splitAudio ⟨true, true⟩ [0, 0, 1] 1 none (some [5/2]) false 2).success = true ∧
    concatSegs [0, 0, 1] (splitAudio ⟨true, true⟩ [0, 0, 1] 1 none (some [5/2]) false 2) ≠
      [0, 0, 1] := by
  constructor
  · decide
  · decide

set_option maxRecDepth 10000 in
unseal Rat.add Rat.mul Rat.inv Rat.sub in
/-- **C1** witness: a fixed-duration request (2 s pieces of a 4-sample,
1 Hz buffer) satisfying the amended hypotheses reconstructs the buffer. -/
theorem C1_reconstruction_witness :
    concatSegs [0, 0, 0, 1] (splitAudio ⟨true, true⟩ [0, 0, 0, 1] 1 (some 2) none false 2) =
      [0, 0, 0, 1] :=
  C1_reconstruction ⟨true, true⟩ [0, 0, 0, 1] 1 (by norm_num) (some 2) none false 2
    (fun d h => by injection h with h2; rw [← h2]; norm_num)
    (fun ds h => by cases h)
    (by decide)
    (fun h => by cases h)

/-! ## Claim C2 -/

/-- One non-smart walk step from a sample-aligned position, with a duration
that is an exact positive whole number of samples, lands exactly one duration
later (no rounding happens). -/
theorem refineStep_exact (data : List ℚ) (sr : ℕ) (hsr : 0 < sr) (r : ℚ)
    (pos d : ℚ) (m z : ℤ) (hpos : pos * sr = m) (hz : d * sr = z) :
    refineStep data sr false r (pos + d) = pos + d := by
  have hsrq : (sr : ℚ) ≠ 0 := by positivity
  have harg : (pos + d) * (sr : ℚ) = ((m + z : ℤ) : ℚ) := by
    push_cast
    rw [add_mul, hpos, hz]
  simp only [refineStep, if_neg (Bool.false_ne_true)]
  rw [harg, pyRound_intCast]
  rw [harg] at *
  field_simp at harg ⊢
  linarith [harg]

/-- A duration that is a positive whole number of samples is positive. -/
theorem dur_pos_of_int {sr : ℕ} (hsr : 0 < sr) {d : ℚ} {z : ℤ}
    (hz : d * sr = z) (hz1 : 1 ≤ z) : 0 < d := by
  have hsrq : (0 : ℚ) < (sr : ℚ) := by positivity
  have hz1q : (1 : ℚ) ≤ (z : ℚ) := by exact_mod_cast hz1
  by_contra hc
  push_neg at hc
  have hnp : d * (sr : ℚ) ≤ 0 := mul_nonpos_of_nonpos_of_nonneg hc hsrq.le
  rw [hz] at hnp
  linarith

/-- The non-smart custom walk with whole-sample positive durations is
strictly increasing and ends exactly at `pos + sum(durations)`. -/
theorem buildPointsList_strict (data : List ℚ) (sr : ℕ) (hsr : 0 < sr) (r : ℚ) :
    ∀ (ds : List ℚ), (∀ x ∈ ds, ∃ z : ℤ, x * sr = z ∧ 1 ≤ z) →
    ∀ (pos : ℚ) (m : ℤ), pos * sr = m →
    List.Chain (· < ·) pos (buildPointsList (refineStep data sr false r) ds pos) ∧
    (buildPointsList (refineStep data sr false r) ds pos).getLastD pos = pos + ds.sum := by
  intro ds
  induction ds with
  | nil =>
      intro _ pos m hpos
      exact ⟨List.Chain.nil, by simp [buildPointsList]⟩
  | cons d rest ih =>
      intro hint pos m hpos
      obtain ⟨z, hz, hz1⟩ := hint d (List.mem_cons_self d rest)
      have hstep := refineStep_exact data sr hsr r pos d m z hpos hz
      have hdpos : 0 < d := dur_pos_of_int hsr hz hz1
      have hnext : (pos + d) * (sr : ℚ) = ((m + z : ℤ) : ℚ) := by
        push_cast
        rw [add_mul, hpos, hz]
      obtain ⟨hchain, hlast⟩ :=
        ih (fun x hx => hint x (List.mem_cons_of_mem d hx)) (pos + d) (m + z) hnext
      constructor
      · simp only [buildPointsList, hstep]
        exact List.Chain.cons (by linarith) hchain
      · simp only [buildPointsList, hstep, List.getLastD_cons, hlast, List.sum_cons]
        ring

/-- The non-smart fixed walk with a whole-sample positive duration is
strictly increasing and ends exactly at `pos + k * d`. -/
theorem buildPoints_strict (data : List ℚ) (sr : ℕ) (hsr : 0 < sr) (r : ℚ)
    (d : ℚ) (z : ℤ) (hz : d * sr = z) (hz1 : 1 ≤ z) :
    ∀ (k : ℕ) (pos : ℚ) (m : ℤ), pos * sr = m →
    List.Chain (· < ·) pos (buildPoints (refineStep data sr false r) d k pos) ∧
    (buildPoints (refineStep data sr false r) d k pos).getLastD pos = pos + k * d := by
  intro k
  induction k with
  | zero =>
      intro pos m hpos
      exact ⟨List.Chain.nil, by simp [buildPoints]⟩
  | succ k ih =>
      intro pos m hpos
      have hstep := refineStep_exact data sr hsr r pos d m z hpos hz
      have hdpos : 0 < d := dur_pos_of_int hsr hz hz1
      have hnext : (pos + d) * (sr : ℚ) = ((m + z : ℤ) : ℚ) := by
        push_cast
        rw [add_mul, hpos, hz]
      obtain ⟨hchain, hlast⟩ := ih (pos + d) (m + z) hnext
      constructor
      · simp only [buildPoints, hstep]
        exact List.Chain.cons (by linarith) hchain
      · simp only [buildPoints, hstep, List.getLastD_cons, hlast]
        push_cast
        ring

/-- **C2** (amended).  For non-smart requests whose requested durations are
each an exact positive whole number of samples, the computed split-point
list is strictly increasing, starts at `0`, and ends at `total_duration` in
fixed mode; in custom mode the list ends at the sum of the explicit
durations (the end of the last explicit duration), and when the trailing
remainder is retained (`remainder ≥ 1.0 s`) the boundary list extended by
the implicit final boundary `total_duration` is still strictly increasing.
(As stated — for all durations and with smart mode included — the claim is
false: a fractional-sample duration makes consecutive boundaries collide or
overshoot `total_duration`, see the counterexample.) -/
theorem C2_boundaries (data : List ℚ) (sr : ℕ) (hsr : 0 < sr) (r : ℚ) :
    (∀ d : ℚ, ∀ z : ℤ, d * sr = z → 1 ≤ z → d < (data.length : ℚ) / (sr : ℚ) →
      List.Chain' (· < ·) (fixedSplitPoints data sr d false r) ∧
      (fixedSplitPoints data sr d false r).head? = some 0 ∧
      (fixedSplitPoints data sr d false r).getLast? =
        some ((data.length : ℚ) / (sr : ℚ))) ∧
    (∀ ds : List ℚ, ds ≠ [] → (∀ x ∈ ds, ∃ z : ℤ, x * sr = z ∧ 1 ≤ z) →
      ds.sum < (data.length : ℚ) / (sr : ℚ) →
      List.Chain' (· < ·) (customSplitPoints data sr ds false r) ∧
      (customSplitPoints data sr ds false r).head? = some 0 ∧
      (customSplitPoints data sr ds false r).getLastD 0 = ds.sum ∧
      List.Chain' (· < ·)
        (customSplitPoints data sr ds false r ++ [(data.length : ℚ) / (sr : ℚ)])) := by
  have hsrq : (0 : ℚ) < (sr : ℚ) := by positivity
  constructor
  · intro d z hz hz1 hdt
    have hdpos : 0 < d := dur_pos_of_int hsr hz hz1
    set total : ℚ := (data.length : ℚ) / (sr : ℚ) with htotal
    set n : ℤ := ⌈total / d⌉ with hn
    have hn1 : (1 : ℤ) ≤ n := Int.ceil_pos.mpr (div_pos (lt_trans hdpos hdt) hdpos)
    obtain ⟨hchain, hlast⟩ := buildPoints_strict data sr hsr r d z hz hz1
      (n - 1).toNat 0 0 (by norm_num)
    have hklt : ((n - 1).toNat : ℚ) * d < total := by
      have h1 : ((n : ℚ) - 1) < total / d := by
        have := Int.ceil_lt_add_one (total / d)
        push_cast at this ⊢
        linarith
      have h2 : ((n - 1).toNat : ℚ) = (n : ℚ) - 1 := by
        have : ((n - 1).toNat : ℤ) = n - 1 := Int.toNat_of_nonneg (by omega)
        exact_mod_cast congrArg (fun x : ℤ => (x : ℚ)) this
      rw [h2]
      calc ((n : ℚ) - 1) * d < (total / d) * d := by
            apply mul_lt_mul_of_pos_right h1 hdpos
      _ = total := by field_simp
    refine ⟨?_, ?_, ?_⟩
    · unfold fixedSplitPoints
      rw [List.cons_append, ← hn, ← htotal]
      show List.Chain (· < ·) 0 _
      apply chain_concat
      · exact hchain
      · rw [hlast]
        simpa using hklt
    · unfold fixedSplitPoints
      rw [List.cons_append]
      rfl
    · unfold fixedSplitPoints
      exact List.getLast?_concat _
  · intro ds hne hint hsum
    obtain ⟨hchain, hlast⟩ := buildPointsList_strict data sr hsr r ds hint 0 0 (by norm_num)
    have hhead : (customSplitPoints data sr ds false r).head? = some 0 := rfl
    have hchain' : List.Chain' (· < ·) (customSplitPoints data sr ds false r) := by
      unfold customSplitPoints
      exact hchain
    have hlastD : (customSplitPoints data sr ds false r).getLastD 0 = ds.sum := by
      unfold customSplitPoints
      rw [List.getLastD_cons, hlast]
      ring
    refine ⟨hchain', hhead, hlastD, ?_⟩
    unfold customSplitPoints
    rw [List.cons_append]
    show List.Chain (· < ·) 0 _
    apply chain_concat
    · exact hchain
    · rw [hlast]
      simpa using hsum

set_option maxRecDepth 10000 in
unseal Rat.add Rat.mul Rat.inv Rat.sub in
/-- **C2** counterexample: the successful non-smart fixed request
`segment_duration = 0.15` on a 3 s buffer at 10 Hz (duration = 1.5 samples)
produces the split-point list `[0, 0.2, 0.4, …, 3.8, 3.0]`, which is not
strictly increasing (its penultimate entry exceeds the final
`total_duration`). -/
theorem C2_counterexample :
    (splitAudioFixed (List.replicate 30 (0 : ℚ)) 10 (3/20) false 2).success = true ∧
    ¬ List.Chain' (· < ·)
      (fixedSplitPoints (List.replicate 30 (0 : ℚ)) 10 (3/20) false 2) := by
  constructor
  · decide
  · intro hch
    have hpts : fixedSplitPoints (List.replicate 30 (0 : ℚ)) 10 (3/20) false 2 =
        [0, 1/5, 2/5, 3/5, 4/5, 1, 6/5, 7/5, 8/5, 9/5, 2, 11/5, 12/5, 13/5,
          14/5, 3, 16/5, 17/5, 18/5, 19/5, 3] := by
      decide
    rw [hpts] at hch
    simp only [List.chain'_cons, List.chain'_singleton, and_true] at hch
    norm_num at hch

set_option maxRecDepth 10000 in
unseal Rat.add Rat.mul Rat.inv Rat.sub in
/-- **C2** witness: at 1 Hz with `d = 2` on a 5-sample buffer and custom
durations `[1, 2]`, all amended conclusions hold concretely. -/
theorem C2_boundaries_witness :
    List.Chain' (· < ·) (fixedSplitPoints (List.replicate 5 (0 : ℚ)) 1 2 false 2) ∧
    (fixedSplitPoints (List.replicate 5 (0 : ℚ)) 1 2 false 2).getLast? = some 5 ∧
    List.Chain' (· < ·)
      (customSplitPoints (List.replicate 5 (0 : ℚ)) 1 [1, 2] false 2 ++ [5]) := by
  obtain ⟨hf, hc⟩ := C2_boundaries (List.replicate 5 (0 : ℚ)) 1 (by norm_num) 2
  have h1 := hf 2 2 (by norm_num) (by norm_num) (by norm_num)
  have hint : ∀ x ∈ ([1, 2] : List ℚ), ∃ z : ℤ, x * ((1 : ℕ) : ℚ) = z ∧ 1 ≤ z := by
    intro x hx
    rcases List.mem_cons.mp hx with rfl | hx2
    · exact ⟨1, by norm_num, by norm_num⟩
    · rcases List.mem_cons.mp hx2 with rfl | hx3
      · exact ⟨2, by norm_num, by norm_num⟩
      · exact absurd hx3 (List.not_mem_nil x)
  have h2 := hc [1, 2] (by simp) hint (by norm_num)
  refine ⟨h1.1, ?_, ?_⟩
  · simpa using h1.2.2
  · simpa using h2.2.2.2

/-! ## Claim C5 -/

/-- **C5** (amended).  For a fixed-duration request:
`segment_duration ≥ total_duration` fails with the invalid-duration error
and zero output files; `segment_duration = 0` fails (the `ZeroDivisionError`
from `ceil(total/0)` is caught by `split_audio`'s `try/except`) with zero
output files; but `segment_duration < 0` is **not** validated — the request
returns a success result with zero output files.  (The original claim that
every `segment_duration ≤ 0` fails with an invalid-duration error is false,
see the counterexample.) -/
theorem C5_fixed_validation (file : FileInfo) (data : List ℚ) (sr : ℕ) (d : ℚ)
    (smart : Bool) (r : ℚ) (hp : file.present = true) (hs : file.supported = true) :
    ((data.length : ℚ) / (sr : ℚ) ≤ d →
      splitAudio file data sr (some d) none smart r =
        ⟨false, "分割时长大于或等于音频总时长", false, []⟩) ∧
    (d = 0 → d < (data.length : ℚ) / (sr : ℚ) →
      (splitAudio file data sr (some d) none smart r).success = false ∧
      (splitAudio file data sr (some d) none smart r).ranges = []) ∧
    (d < 0 → d < (data.length : ℚ) / (sr : ℚ) →
      (splitAudio file data sr (some d) none smart r).success = true ∧
      (splitAudio file data sr (some d) none smart r).ranges = []) := by
  have heq : splitAudio file data sr (some d) none smart r =
      splitAudioFixed data sr d smart r := by
    simp [splitAudio, hp, hs]
  refine ⟨?_, ?_, ?_⟩
  · intro h
    rw [heq]
    simp [splitAudioFixed, h]
  · intro h0 hlt
    rw [heq]
    subst h0
    simp only [splitAudioFixed]
    split
    · exact ⟨rfl, rfl⟩
    · exact ⟨rfl, rfl⟩
  · intro hneg hlt
    rw [heq]
    have hne : ¬ ((data.length : ℚ) / (sr : ℚ) ≤ d) := not_le.mpr hlt
    have h0 : ¬ (d = 0) := ne_of_lt hneg
    have hceil : (⌈(data.length : ℚ) / (sr : ℚ) / d⌉ : ℤ) ≤ 0 := by
      apply Int.ceil_le.mpr
      push_cast
      exact div_nonpos_of_nonneg_of_nonpos (by positivity) hneg.le
    constructor
    · simp [splitAudioFixed, hne, h0]
    · simp only [splitAudioFixed, if_neg hne, if_neg h0]
      rw [Int.toNat_of_nonpos hceil]
      exact List.take_zero _

set_option maxRecDepth 10000 in
unseal Rat.add Rat.mul Rat.inv Rat.sub in
/-- **C5** counterexample: `segment_duration = -1` on a 3-sample, 1 Hz
buffer violates the precondition `0 < segment_duration`, yet the request
returns a *success* result (with zero output files) instead of an
invalid-duration failure. -/
theorem C5_counterexample :
    (splitAudio ⟨true, true⟩ [0, 0, 0] 1 (some (-1)) none false 2).success = true := by
  decide

set_option maxRecDepth 10000 in
unseal Rat.add Rat.mul Rat.inv Rat.sub in
/-- **C5** witness: `segment_duration = 15` on a 10-sample, 1 Hz buffer
(duration above the total) fails with the invalid-duration message and
zero files. -/
theorem C5_fixed_validation_witness :
    splitAudio ⟨true, true⟩ (List.replicate 10 (0 : ℚ)) 1 (some 15) none false 2 =
      ⟨false, "分割时长大于或等于音频总时长", false, []⟩ :=
  (C5_fixed_validation ⟨true, true⟩ (List.replicate 10 (0 : ℚ)) 1 15 false 2 rfl rfl).1
    (by norm_num)

/-! ## Claim C8 -/

set_option maxRecDepth 10000 in
unseal Rat.add Rat.mul Rat.inv Rat.sub in
/-- **C8** evaluation at the failing input: the valid non-smart request
`segment_duration = 0.15` on a 3 s buffer at 10 Hz reaches the slicing step
with degenerate boundary pairs.  The run *succeeds*, the degenerate range
`(30, 30)` (and even `(32, 30)` with `end < start`) is among the emitted
ranges, and its segment data is empty — the slicer writes an empty output
file instead of failing an internal-consistency check.  (No assert or
fatal path exists in `_split_audio_fixed`/`_split_audio_custom`:
src/main.py:300-318, 387-407.) -/
theorem C8_degenerate_emitted :
    (splitAudioFixed (List.replicate 30 (0 : ℚ)) 10 (3/20) false 2).success = true ∧
    (splitAudioFixed (List.replicate 30 (0 : ℚ)) 10 (3/20) false 2).ranges.length = 20 ∧
    (splitAudioFixed (List.replicate 30 (0 : ℚ)) 10 (3/20) false 2).ranges.getD 15 (0, 0) =
      (30, 30) ∧
    (splitAudioFixed (List.replicate 30 (0 : ℚ)) 10 (3/20) false 2).ranges.getD 16 (0, 0) =
      (32, 30) ∧
    pySlice (List.replicate 30 (0 : ℚ)) 30 30 = [] ∧
    pySlice (List.replicate 30 (0 : ℚ)) 32 30 = [] := by
  refine ⟨by decide, by decide, by decide, by decide, by decide, by decide⟩

/-! ## Claim C9 -/

/-- **C9** (amended).  `split_audio` always returns a structured
`(success, message, output_files)` result (the embedding is a total
function; the source wraps everything in `try/except`), and each listed
validation or range error is reported with `success = false` — *except*
a non-positive fixed `segment_duration`, which is not validated:
`d = 0` still fails (through the caught `ZeroDivisionError`), but `d < 0`
yields a success result (see the counterexample). -/
theorem C9_failure_reporting (file : FileInfo) (data : List ℚ) (sr : ℕ)
    (smart : Bool) (r : ℚ) :
    ((splitAudio file data sr none none smart r).success = false) ∧
    (∀ (d : ℚ) (ds : List ℚ),
      (splitAudio file data sr (some d) (some ds) smart r).success = false) ∧
    (∀ d : ℚ, file.present = false →
      (splitAudio file data sr (some d) none smart r).success = false) ∧
    (∀ ds : List ℚ, file.present = false →
      (splitAudio file data sr none (some ds) smart r).success = false) ∧
    (∀ d : ℚ, file.supported = false →
      (splitAudio file data sr (some d) none smart r).success = false) ∧
    (∀ ds : List ℚ, file.supported = false →
      (splitAudio file data sr none (some ds) smart r).success = false) ∧
    ((splitAudio file data sr none (some []) smart r).success = false) ∧
    (∀ (ds : List ℚ) (x : ℚ), x ∈ ds → x ≤ 0 →
      (splitAudio file data sr none (some ds) smart r).success = false) ∧
    (∀ ds : List ℚ, (data.length : ℚ) / (sr : ℚ) ≤ ds.sum →
      (splitAudio file data sr none (some ds) smart r).success = false) ∧
    (∀ d : ℚ, (data.length : ℚ) / (sr : ℚ) ≤ d →
      (splitAudio file data sr (some d) none smart r).success = false) := by
  have hcustom : ∀ ds : List ℚ, file.present = true → file.supported = true →
      splitAudio file data sr none (some ds) smart r =
        splitAudioCustom data sr ds smart r := by
    intro ds hp hs
    simp [splitAudio, hp, hs]
  have hfail : ∀ (segDur : Option ℚ) (customDurs : Option (List ℚ)),
      (file.present = false ∨ file.supported = false) →
      (segDur.isSome ∨ customDurs.isSome) → ¬ (segDur.isSome ∧ customDurs.isSome) →
      (splitAudio file data sr segDur customDurs smart r).success = false := by
    intro segDur customDurs hfile hone hnot
    match segDur, customDurs with
    | none, none => simp [splitAudio]
    | some _, some _ => simp [splitAudio]
    | some d, none =>
        rcases hfile with h | h
        · simp [splitAudio, h]
        · by_cases hp : file.present = false
          · simp [splitAudio, hp]
          · simp only [Bool.not_eq_false] at hp
            simp [splitAudio, hp, h]
    | none, some ds =>
        rcases hfile with h | h
        · simp [splitAudio, h]
        · by_cases hp : file.present = false
          · simp [splitAudio, hp]
          · simp only [Bool.not_eq_false] at hp
            simp [splitAudio, hp, h]
  have hcustomFail : ∀ ds : List ℚ,
      (splitAudioCustom data sr ds smart r).success = false ∨
      (ds ≠ [] ∧ (∀ x ∈ ds, 0 < x) ∧
        ds.sum < (data.length : ℚ) / (sr : ℚ)) := by
    intro ds
    by_cases hne : ds = []
    · left; simp [splitAudioCustom, hne]
    · rcases hfind : ds.findIdx? (fun x => decide (x ≤ 0)) with _ | i
      · by_cases hsum : (data.length : ℚ) / (sr : ℚ) ≤ ds.sum
        · left; simp [splitAudioCustom, hne, hfind, hsum]
        · right
          refine ⟨hne, ?_, not_le.mp hsum⟩
          intro x hx
          rw [List.findIdx?_eq_none_iff] at hfind
          have := hfind x hx
          simp only [decide_eq_false_iff_not, not_le] at this
          exact this
      · left; simp [splitAudioCustom, hne, hfind]
  refine ⟨by simp [splitAudio], by intro d ds; simp [splitAudio], ?_, ?_, ?_, ?_, ?_, ?_, ?_, ?_⟩
  · intro d hp
    exact hfail (some d) none (Or.inl hp) (by simp) (by simp)
  · intro ds hp
    exact hfail none (some ds) (Or.inl hp) (by simp) (by simp)
  · intro d hs
    exact hfail (some d) none (Or.inr hs) (by simp) (by simp)
  · intro ds hs
    exact hfail none (some ds) (Or.inr hs) (by simp) (by simp)
  · by_cases hp : file.present = false
    · exact hfail none (some []) (Or.inl hp) (by simp) (by simp)
    · by_cases hs : file.supported = false
      · exact hfail none (some []) (Or.inr hs) (by simp) (by simp)
      · simp only [Bool.not_eq_false] at hp hs
        rw [hcustom [] hp hs]
        simp [splitAudioCustom]
  · intro ds x hx hx0
    by_cases hp : file.present = false
    · exact hfail none (some ds) (Or.inl hp) (by simp) (by simp)
    · by_cases hs : file.supported = false
      · exact hfail none (some ds) (Or.inr hs) (by simp) (by simp)
      · simp only [Bool.not_eq_false] at hp hs
        rw [hcustom ds hp hs]
        rcases hcustomFail ds with h | ⟨_, hpos, _⟩
        · exact h
        · exact absurd (hpos x hx) (not_lt.mpr hx0)
  · intro ds hsum
    by_cases hp : file.present = false
    · exact hfail none (some ds) (Or.inl hp) (by simp) (by simp)
    · by_cases hs : file.supported = false
      · exact hfail none (some ds) (Or.inr hs) (by simp) (by simp)
      · simp only [Bool.not_eq_false] at hp hs
        rw [hcustom ds hp hs]
        rcases hcustomFail ds with h | ⟨_, _, hlt⟩
        · exact h
        · exact absurd hsum (not_le.mpr hlt)
  · intro d hd
    by_cases hp : file.present = false
    · exact hfail (some d) none (Or.inl hp) (by simp) (by simp)
    · by_cases hs : file.supported = false
      · exact hfail (some d) none (Or.inr hs) (by simp) (by simp)
      · simp only [Bool.not_eq_false] at hp hs
        have heq : splitAudio file data sr (some d) none smart r =
            splitAudioFixed data sr d smart r := by
          simp [splitAudio, hp, hs]
        rw [heq]
        simp [splitAudioFixed, hd]

set_option maxRecDepth 10000 in
unseal Rat.add Rat.mul Rat.inv Rat.sub in
/-- **C9** counterexample: `segment_duration = -5` (a non-positive duration,
one of the listed input-validation errors) on a 10-sample, 1 Hz file is not
reported as a failure — `split_audio` returns `success = true`. -/
theorem C9_counterexample :
    (splitAudio ⟨true, true⟩ (List.replicate 10 (0 : ℚ)) 1 (some (-5)) none false
      2).success = true := by
  decide

/-- **C9** witness: a missing input file in fixed mode is reported as a
failure result. -/
theorem C9_failure_reporting_witness :
    (splitAudio ⟨false, true⟩ [0] 1 (some 1) none false 2).success = false :=
  (C9_failure_reporting ⟨false, true⟩ [0] 1 false 2).2.2.1 1 rfl

/-! ## Claim C10 -/

/-- **C10** (confirmed).  Every failure result of `split_audio` is produced
before the first side effect: whenever `success = false`, the output
directory was never created and no output file was written.  (All
validation and range checks in `split_audio`, `_split_audio_fixed`
(src/main.py:257-263) and `_split_audio_custom` (src/main.py:329-348)
precede `output_dir.mkdir`; in the embedding every failure path therefore
carries `dirCreated = false` and an empty range list.) -/
theorem C10_no_side_effects (file : FileInfo) (data : List ℚ) (sr : ℕ)
    (segDur : Option ℚ) (customDurs : Option (List ℚ)) (smart : Bool) (r : ℚ)
    (hfail : (splitAudio file data sr segDur customDurs smart r).success = false) :
    (splitAudio file data sr segDur customDurs smart r).dirCreated = false ∧
    (splitAudio file data sr segDur customDurs smart r).ranges = [] := by
  match segDur, customDurs with
  | none, none => exact ⟨rfl, rfl⟩
  | some _, some _ => exact ⟨rfl, rfl⟩
  | some d, none =>
      by_cases hp : file.present = false
      · simp [splitAudio, hp]
      · by_cases hs : file.supported = false
        · simp [splitAudio, hp, hs]
        · simp only [Bool.not_eq_false] at hp hs
          have heq : splitAudio file data sr (some d) none smart r =
              splitAudioFixed data sr d smart r := by
            simp [splitAudio, hp, hs]
          rw [heq] at hfail ⊢
          by_cases h1 : (data.length : ℚ) / (sr : ℚ) ≤ d
          · simp [splitAudioFixed, h1]
          · by_cases h0 : d = 0
            · subst h0
              simp only [splitAudioFixed]
              split
              · exact ⟨rfl, rfl⟩
              · exact ⟨rfl, rfl⟩
            · exact absurd hfail (by simp [splitAudioFixed, h1, h0])
  | none, some ds =>
      by_cases hp : file.present = false
      · simp [splitAudio, hp]
      · by_cases hs : file.supported = false
        · simp [splitAudio, hp, hs]
        · simp only [Bool.not_eq_false] at hp hs
          have heq : splitAudio file data sr none (some ds) smart r =
              splitAudioCustom data sr ds smart r := by
            simp [splitAudio, hp, hs]
          rw [heq] at hfail ⊢
          by_cases hne : ds = []
          · simp [splitAudioCustom, hne]
          · rcases hfind : ds.findIdx? (fun x => decide (x ≤ 0)) with _ | i
            · by_cases hsum : (data.length : ℚ) / (sr : ℚ) ≤ ds.sum
              · simp [splitAudioCustom, hne, hfind, hsum]
              · exact absurd hfail (by simp [splitAudioCustom, hne, hfind, hsum])
            · simp [splitAudioCustom, hne, hfind]

/-- **C10** witness: for the failing request on a missing file, no
directory is created and no file is written. -/
theorem C10_no_side_effects_witness :
    (splitAudio ⟨false, true⟩ [0] 1 (some 1) none false 2).dirCreated = false ∧
    (splitAudio ⟨false, true⟩ [0] 1 (some 1) none false 2).ranges = [] :=
  C10_no_side_effects ⟨false, true⟩ [0] 1 (some 1) none false 2 rfl

/-! ## Claim C6 -/

theorem boundaryRanges_length (len sr : ℕ) (pts : List ℚ) :
    (boundaryRanges len sr pts).length = pts.length - 1 := by
  unfold boundaryRanges
  rw [List.length_map, List.length_zip, List.length_tail]
  omega

/-- **C6** (confirmed).  For every custom-duration request with all
durations positive and `sum(durations) < total_duration` (and likewise for
an externally sourced duration list, which delegates to the same custom
path): a trailing remainder of at least 1.0 s yields exactly
`len(durations) + 1` emitted segments; a remainder below 1.0 s yields
exactly `len(durations)` segments and a result message carrying the
dropped-remainder note. -/
theorem C6_custom_counts (data : List ℚ) (sr : ℕ) (ds : List ℚ) (smart : Bool)
    (r : ℚ) (hne : ds ≠ []) (hpos : ∀ x ∈ ds, 0 < x)
    (hsum : ds.sum < (data.length : ℚ) / (sr : ℚ)) :
    (1 ≤ (data.length : ℚ) / (sr : ℚ) - ds.sum →
      (splitAudioCustom data sr ds smart r).success = true ∧
      (splitAudioCustom data sr ds smart r).ranges.length = ds.length + 1) ∧
    ((data.length : ℚ) / (sr : ℚ) - ds.sum < 1 →
      (splitAudioCustom data sr ds smart r).success = true ∧
      (splitAudioCustom data sr ds smart r).ranges.length = ds.length ∧
      ∃ pre : String, (splitAudioCustom data sr ds smart r).message =
        pre ++ ("（最后一段时长" ++ fmt1 ((data.length : ℚ) / (sr : ℚ) - ds.sum) ++
          "秒，小于1秒，已跳过）")) ∧
    (∀ file : FileInfo, file.present = true → file.supported = true →
      splitAudioByVideoDurations file data sr ds smart r =
        splitAudioCustom data sr ds smart r) := by
  have hfind := findIdx?_eq_none_of_pos ds hpos
  have hnsum : ¬ ((data.length : ℚ) / (sr : ℚ) ≤ ds.sum) := not_le.mpr hsum
  have hblen : (boundaryRanges data.length sr
      (customSplitPoints data sr ds smart r)).length = ds.length := by
    rw [boundaryRanges_length]
    simp [customSplitPoints, buildPointsList_length]
  have htake : ((boundaryRanges data.length sr
      (customSplitPoints data sr ds smart r)).take ds.length).length = ds.length := by
    rw [List.length_take, hblen, min_self]
  refine ⟨?_, ?_, ?_⟩
  · intro hrem
    have hcl : decide (1 ≤ (data.length : ℚ) / (sr : ℚ) - ds.sum) = true :=
      decide_eq_true hrem
    constructor
    · simp [splitAudioCustom, hne, hfind, hnsum, hcl]
    · simp only [splitAudioCustom, if_neg hne, hfind, if_neg hnsum, hcl, if_true]
      rw [List.length_append, htake]
      rfl
  · intro hrem
    have hcl : decide (1 ≤ (data.length : ℚ) / (sr : ℚ) - ds.sum) = false :=
      decide_eq_false (not_le.mpr hrem)
    refine ⟨?_, ?_, ?_⟩
    · simp [splitAudioCustom, hne, hfind, hnsum, hcl]
    · simp only [splitAudioCustom, if_neg hne, hfind, if_neg hnsum, hcl, if_false,
        Bool.false_eq_true]
      rw [List.length_append, htake]
      rfl
    · refine ⟨(if smart then "智能" else "自定义") ++ "分割完成！共生成 " ++
        toString ((boundaryRanges data.length sr
          (customSplitPoints data sr ds smart r)).take ds.length ++
          (if (false : Bool) then [((pyRound ((customSplitPoints data sr ds smart
            r).getLastD 0 * sr)).toNat, data.length)] else [])).length ++ " 个文件", ?_⟩
      simp [splitAudioCustom, hne, hfind, hnsum, hcl]
  · intro file hp hs
    unfold splitAudioByVideoDurations
    rw [hp, hs]
    simp only [Bool.true_eq_false, if_false, if_neg hne, hfind]
    simp [splitAudio, hp, hs]

set_option maxRecDepth 10000 in
unseal Rat.add Rat.mul Rat.inv Rat.sub in
/-- **C6** witness: `custom_durations = [1]` on a 5-sample, 1 Hz buffer
(remainder 4 s ≥ 1 s) emits exactly 2 segments. -/
theorem C6_custom_counts_witness :
    (splitAudioCustom (List.replicate 5 (0 : ℚ)) 1 [1] false 2).success = true ∧
    (splitAudioCustom (List.replicate 5 (0 : ℚ)) 1 [1] false 2).ranges.length = 2 :=
  (C6_custom_counts (List.replicate 5 (0 : ℚ)) 1 [1] false 2
    (by simp)
    (fun x hx => by
      rcases List.mem_cons.mp hx with rfl | hx2
      · norm_num
      · exact absurd hx2 (List.not_mem_nil x))
    (by norm_num)).1 (by norm_num)

/-! ## Claim C4 -/

theorem pyRange0_length (stop : ℤ) (step : ℕ) :
    (pyRange0 stop step).length =
      if 0 < stop ∧ 0 < step then (stop.toNat - 1) / step + 1 else 0 := by
  unfold pyRange0
  split <;> simp

theorem getD_map_lt {α β : Type} (f : α → β) {l : List α} {j : ℕ}
    (h : j < l.length) (d : α) (d2 : β) : (l.map f).getD j d2 = f (l.getD j d) := by
  rw [List.getD_eq_getElem?_getD, List.getD_eq_getElem?_getD,
    List.getElem?_eq_getElem (by simpa using h), List.getElem?_eq_getElem h]
  simp

theorem pyRange0_getD (stop : ℤ) (step : ℕ) (j : ℕ)
    (h : j < (pyRange0 stop step).length) :
    (pyRange0 stop step).getD j 0 = j * step := by
  unfold pyRange0 at h ⊢
  split at h
  · rename_i hc
    rw [if_pos hc, getD_map_lt _ (by simpa using h) 0]
    rw [List.getD_eq_getElem?_getD, List.getElem?_eq_getElem (by simpa using h)]
    simp
  · simp at h

theorem pyRange0_mem (stop : ℤ) (step : ℕ) (hstep : 0 < step) (i : ℕ) :
    i ∈ pyRange0 stop step ↔ step ∣ i ∧ (i : ℤ) < stop := by
  unfold pyRange0
  by_cases hc : 0 < stop
  · rw [if_pos ⟨hc, hstep⟩]
    simp only [List.mem_map, List.mem_range]
    constructor
    · rintro ⟨k, hk, rfl⟩
      refine ⟨dvd_mul_left step k, ?_⟩
      have hk2 : k ≤ (stop.toNat - 1) / step := by omega
      have := (Nat.le_div_iff_mul_le hstep).mp hk2
      omega
    · rintro ⟨⟨k, rfl⟩, hlt⟩
      have hcomm : step * k = k * step := mul_comm step k
      refine ⟨k, ?_, mul_comm k step⟩
      have hk2 : k * step ≤ stop.toNat - 1 := by omega
      have := (Nat.le_div_iff_mul_le hstep).mpr hk2
      omega
  · rw [if_neg (fun hand => hc hand.1)]
    simp only [List.not_mem_nil, false_iff, not_and, not_lt]
    intro _
    omega

/-- Modelled from the claim's words, not from the source (used only as the
counterexample's foil): window length `W = round(window_seconds *
sample_rate)` and one pair for every step position `i` with
`i + W ≤ len(buffer)` (inclusive bound). -/
def analyzeAudioVolumeClaim (data : List ℚ) (sr : ℕ) (ws : ℚ) : List (ℚ × ℚ) :=
  let W : ℕ := (pyRound (ws * sr)).toNat
  let step : ℕ := max 1 (W / 4)
  (pyRange0 ((data.length : ℤ) - W + 1) step).map
    (fun (i : ℕ) => ((i : ℚ) / (sr : ℚ), meanSq (pySlice data i (i + W))))

/-- **C4** (amended).  `analyze_audio_volume` uses window length
`W = int(window_seconds * sample_rate)` (truncation, not rounding) and step
`max(1, W // 4)`, and produces one `(time, value)` pair for every step
multiple `i` with `i + W < len(buffer)` (strict bound — the position with
`i + W = len(buffer)` is *excluded*): the profile has
`(len - W - 1) / step + 1` entries when `W < len` and none otherwise, the
`j`-th entry is `(j*step / sample_rate, mean(samples[j*step : j*step+W]²))`
(the stored value is the mean square, whose square root is the rms the
source reports), and the positions enumerated are exactly the multiples of
`step` strictly below `len - W`. -/
theorem C4_analyze (data : List ℚ) (sr : ℕ) (ws : ℚ) (W step : ℕ)
    (hW : W = (pyTrunc (ws * sr)).toNat) (hstep : step = max 1 (W / 4)) :
    ((analyzeAudioVolume data sr ws).length =
      if W < data.length then (data.length - W - 1) / step + 1 else 0) ∧
    (∀ j : ℕ, j < (analyzeAudioVolume data sr ws).length →
      (analyzeAudioVolume data sr ws).getD j (0, 0) =
        (((j * step : ℕ) : ℚ) / (sr : ℚ),
          meanSq (pySlice data (j * step) (j * step + W)))) ∧
    (∀ i : ℕ, i ∈ pyRange0 ((data.length : ℤ) - W) step ↔
      step ∣ i ∧ i + W < data.length) := by
  subst hW hstep
  set W : ℕ := (pyTrunc (ws * sr)).toNat with hW
  set step : ℕ := max 1 (W / 4) with hstep
  have hstep0 : 0 < step := by omega
  refine ⟨?_, ?_, ?_⟩
  · show ((pyRange0 ((data.length : ℤ) - W) step).map _).length = _
    rw [List.length_map, pyRange0_length]
    by_cases hc : W < data.length
    · rw [if_pos (by omega), if_pos hc]
      congr 2
      omega
    · rw [if_neg (by omega), if_neg hc]
  · intro j hj
    show ((pyRange0 ((data.length : ℤ) - W) step).map _).getD j (0, 0) = _
    have hj' : j < (pyRange0 ((data.length : ℤ) - W) step).length := by
      have : (analyzeAudioVolume data sr ws).length =
          (pyRange0 ((data.length : ℤ) - W) step).length := List.length_map _ _
      omega
    rw [getD_map_lt _ hj' 0, pyRange0_getD _ _ _ hj']
  · intro i
    rw [pyRange0_mem _ _ hstep0 i]
    constructor
    · rintro ⟨hdvd, hlt⟩
      exact ⟨hdvd, by omega⟩
    · rintro ⟨hdvd, hlt⟩
      exact ⟨hdvd, by omega⟩

set_option maxRecDepth 10000 in
unseal Rat.add Rat.mul Rat.inv Rat.sub in
/-- **C4** counterexample: the source analyzer differs from the claim's
description both in the loop bound (a 4-sample buffer with `W = 2` yields 2
pairs, not the 3 the inclusive bound `i + W ≤ len` would give) and in the
window-length formula (`window_seconds = 0.035` at 100 Hz gives
`int(3.5) = 3`, not `round(3.5) = 4`, so the first window's mean square is
`1/3`, not `1/4`). -/
theorem C4_counterexample :
    analyzeAudioVolume [1, 1, 1, 1] 100 (1/50) ≠
      analyzeAudioVolumeClaim [1, 1, 1, 1] 100 (1/50) ∧
    analyzeAudioVolume [1, 0, 0, 0, 0, 0, 0, 0] 100 (7/200) ≠
      analyzeAudioVolumeClaim [1, 0, 0, 0, 0, 0, 0, 0] 100 (7/200) := by
  refine ⟨by decide, by decide⟩

set_option maxRecDepth 10000 in
unseal Rat.add Rat.mul Rat.inv Rat.sub in
/-- **C4** witness: a 6-sample buffer at 100 Hz with the default 0.02 s
window (`W = 2`, `step = 1`) yields 4 profile entries (positions 0..3;
position 4 with `4 + W = len` is excluded), and entry 2 is the pair for
position 2. -/
theorem C4_analyze_witness :
    (analyzeAudioVolume [1, 1, 1, 1, 1, 1] 100 (1/50)).length = 4 ∧
    (analyzeAudioVolume [1, 1, 1, 1, 1, 1] 100 (1/50)).getD 2 (0, 0) =
      (((2 * max 1 ((pyTrunc ((1/50 : ℚ) * 100)).toNat / 4) : ℕ) : ℚ) / 100,
        meanSq (pySlice [1, 1, 1, 1, 1, 1]
          (2 * max 1 ((pyTrunc ((1/50 : ℚ) * 100)).toNat / 4))
          (2 * max 1 ((pyTrunc ((1/50 : ℚ) * 100)).toNat / 4) +
            (pyTrunc ((1/50 : ℚ) * 100)).toNat))) := by
  have h := C4_analyze [1, 1, 1, 1, 1, 1] 100 (1/50)
    ((pyTrunc ((1/50 : ℚ) * 100)).toNat) (max 1 ((pyTrunc ((1/50 : ℚ) * 100)).toNat / 4))
    rfl rfl
  have hWval : (pyTrunc ((1/50 : ℚ) * 100)).toNat = 2 := by decide
  constructor
  · rw [h.1]
    rw [hWval]
    decide
  · refine h.2.1 2 ?_
    rw [h.1, hWval]
    decide

/-! ## Claim C3 -/

/-- At a sample rate of at least 100 Hz, the high-resolution analysis window
(0.01 s) spans at least one sample. -/
theorem analyzer_window_pos {sr : ℕ} (hsr : 100 ≤ sr) :
    1 ≤ (pyTrunc ((1/100 : ℚ) * sr)).toNat := by
  have hq : (100 : ℚ) ≤ (sr : ℚ) := by exact_mod_cast hsr
  have h : (1 : ℚ) ≤ (1/100 : ℚ) * sr := by linarith
  rw [pyTrunc_of_nonneg (by linarith)]
  have h2 : (1 : ℤ) ≤ ⌊(1/100 : ℚ) * sr⌋ := by
    rw [Int.le_floor]
    exact_mod_cast h
  omega

theorem pyRange0_getD_lt (stop : ℤ) (step : ℕ) (hstep : 0 < step) (j : ℕ)
    (h : j < (pyRange0 stop step).length) :
    (((pyRange0 stop step).getD j 0 : ℕ) : ℤ) < stop := by
  have hmem : (pyRange0 stop step).getD j 0 ∈ pyRange0 stop step := by
    rw [List.getD_eq_getElem?_getD, List.getElem?_eq_getElem h]
    exact List.getElem_mem h
  exact ((pyRange0_mem stop step hstep _).mp hmem).2

/-- **C3** (amended).  With a sample rate of at least 100 Hz and
non-negative `target_time` and `search_range`, `find_optimal_split_point`
either takes the fallback path and returns `target_time` *unchanged* (which
need not be a multiple of `1/sample_rate`), or it returns a time that is an
exact integer multiple of `1/sample_rate`, at most
`min(total_duration, target + range/2)`, and at least
`max(0, target − range/2) − 1/(2·sample_rate)` — the snap to the nearest
sample can undershoot the window's lower edge by up to half a sample
period.  (As stated the claim is false on both counts, see the
counterexample.) -/
theorem C3_locate (data : List ℚ) (sr : ℕ) (target r : ℚ)
    (hsr : 100 ≤ sr) (htarget : 0 ≤ target) (hr : 0 ≤ r) :
    findOptimalSplitPoint data sr target r = target ∨
    ((∃ k : ℤ, findOptimalSplitPoint data sr target r = (k : ℚ) / (sr : ℚ)) ∧
      max 0 (target - r / 2) - 1 / (2 * (sr : ℚ)) ≤ findOptimalSplitPoint data sr target r ∧
      findOptimalSplitPoint data sr target r ≤
        min ((data.length : ℚ) / (sr : ℚ)) (target + r / 2)) := by
  have hsr0 : 0 < sr := by omega
  have hsrq : (0 : ℚ) < (sr : ℚ) := by positivity
  unfold findOptimalSplitPoint
  set startT : ℚ := max 0 (target - r / 2) with hstartT
  set endT : ℚ := min ((data.length : ℚ) / (sr : ℚ)) (target + r / 2) with hendT
  set s : ℕ := (pyTrunc (startT * sr)).toNat with hsdef
  set e : ℕ := sliceStop data.length (pyTrunc (endT * sr)) with hedef
  set search : List ℚ := pySlice data s e with hsearch
  by_cases hempty : search = []
  · rw [if_pos hempty]
    exact Or.inl rfl
  · rw [if_neg hempty]
    set prof : List (ℚ × ℚ) := analyzeAudioVolume search sr (1/100) with hprof
    by_cases hpe : prof = []
    · rw [if_pos hpe]
      exact Or.inl rfl
    · rw [if_neg hpe]
      right
      set W : ℕ := (pyTrunc ((1/100 : ℚ) * sr)).toNat with hW
      set step : ℕ := max 1 (W / 4) with hstep
      have hstep0 : 0 < step := by omega
      have hW1 : 1 ≤ W := analyzer_window_pos hsr
      have hprofeq : prof = (pyRange0 ((search.length : ℤ) - W) step).map
          (fun (i : ℕ) => ((i : ℚ) / (sr : ℚ), meanSq (pySlice search i (i + W)))) := rfl
      set idx : ℕ := argminIdx (prof.map Prod.snd) with hidx
      set tp : ℚ := (prof.map Prod.fst).getD idx 0 with htp
      have hidxlt : idx < prof.length := by
        have hmapne : prof.map Prod.snd ≠ [] := by simpa using hpe
        have := argminIdx_lt hmapne
        simpa using this
      have hidxlt2 : idx < (pyRange0 ((search.length : ℤ) - W) step).length := by
        rw [hprofeq, List.length_map] at hidxlt
        exact hidxlt
      set pos : ℕ := (pyRange0 ((search.length : ℤ) - W) step).getD idx 0 with hpos
      have htpval : tp = (pos : ℚ) / (sr : ℚ) := by
        rw [htp, getD_map_lt Prod.fst hidxlt ((0 : ℚ), (0 : ℚ)) 0]
        rw [hprofeq, getD_map_lt _ hidxlt2 0]
      have hposlt : ((pos : ℕ) : ℤ) < (search.length : ℤ) - W :=
        pyRange0_getD_lt _ _ hstep0 idx hidxlt2
      -- numeric bounds on the search window
      have hstart0 : 0 ≤ startT := le_max_left 0 _
      have hend0 : 0 ≤ endT := by
        rw [hendT]
        apply le_min
        · positivity
        · linarith
      have hsle : (s : ℚ) ≤ startT * sr := by
        rw [hsdef, pyTrunc_of_nonneg (by positivity)]
        have h0 : (0 : ℤ) ≤ ⌊startT * sr⌋ := Int.floor_nonneg.mpr (by positivity)
        have h2 : ((⌊startT * sr⌋.toNat : ℕ) : ℚ) = ((⌊startT * sr⌋ : ℤ) : ℚ) := by
          rw [← Int.cast_natCast, Int.toNat_of_nonneg h0]
        rw [h2]
        exact Int.floor_le _
      have hsgt : startT * sr - 1 < (s : ℚ) := by
        rw [hsdef, pyTrunc_of_nonneg (by positivity)]
        have h0 : (0 : ℤ) ≤ ⌊startT * sr⌋ := Int.floor_nonneg.mpr (by positivity)
        have h2 : ((⌊startT * sr⌋.toNat : ℕ) : ℚ) = ((⌊startT * sr⌋ : ℤ) : ℚ) := by
          rw [← Int.cast_natCast, Int.toNat_of_nonneg h0]
        rw [h2]
        linarith [Int.lt_floor_add_one (startT * sr)]
      have hele : (e : ℚ) ≤ endT * sr := by
        rw [hedef, pyTrunc_of_nonneg (by positivity)]
        unfold sliceStop
        have h0 : (0 : ℤ) ≤ ⌊endT * sr⌋ := Int.floor_nonneg.mpr (by positivity)
        rw [if_neg (by omega)]
        have h2 : ((⌊endT * sr⌋.toNat : ℕ) : ℚ) = ((⌊endT * sr⌋ : ℤ) : ℚ) := by
          rw [← Int.cast_natCast, Int.toNat_of_nonneg h0]
        rw [h2]
        exact Int.floor_le _
      have hlenpos : 0 < search.length := List.length_pos.mpr hempty
      have hlenle : search.length ≤ e - s ∧ s < e := by
        have hlen : search.length = min (e - s) (data.length - s) := by
          rw [hsearch]
          exact pySlice_length data s e
        constructor
        · omega
        · omega
      have hse : s < e := hlenle.2
      have hlenq : (search.length : ℚ) ≤ (e : ℚ) - (s : ℚ) := by
        have h1 : search.length ≤ e - s := hlenle.1
        have h2 : (search.length : ℚ) ≤ ((e - s : ℕ) : ℚ) := by exact_mod_cast h1
        have h3 : ((e - s : ℕ) : ℚ) = (e : ℚ) - (s : ℚ) := by
          have : s ≤ e := hse.le
          push_cast [this]
          ring
        linarith
      have hposq : (pos : ℚ) ≤ (search.length : ℚ) - W - 1 := by
        have h1 : (pos : ℤ) ≤ (search.length : ℤ) - W - 1 := by omega
        exact_mod_cast h1
      -- the refined time and its bounds
      set X : ℚ := (startT + tp) * sr with hX
      have hXle : X ≤ endT * sr - 1 := by
        rw [hX, htpval]
        have hW1q : (1 : ℚ) ≤ (W : ℚ) := by exact_mod_cast hW1
        have hexp : (startT + (pos : ℚ) / (sr : ℚ)) * sr = startT * sr + (pos : ℚ) := by
          field_simp
        rw [hexp]
        linarith
      have hXge : startT * sr ≤ X := by
        rw [hX, htpval]
        have hexp : (startT + (pos : ℚ) / (sr : ℚ)) * sr = startT * sr + (pos : ℚ) := by
          field_simp
        rw [hexp]
        have : (0 : ℚ) ≤ (pos : ℚ) := by positivity
        linarith
      refine ⟨⟨pyRound X, rfl⟩, ?_, ?_⟩
      · show startT - 1 / (2 * (sr : ℚ)) ≤ ((pyRound X : ℤ) : ℚ) / (sr : ℚ)
        rw [le_div_iff₀ hsrq]
        have hexp : (startT - 1 / (2 * (sr : ℚ))) * sr = startT * sr - 1/2 := by
          field_simp
          ring
        rw [hexp]
        linarith [le_pyRound X]
      · show ((pyRound X : ℤ) : ℚ) / (sr : ℚ) ≤ endT
        rw [div_le_iff₀ hsrq]
        linarith [pyRound_le X]

set_option maxRecDepth 10000 in
unseal Rat.add Rat.mul Rat.inv Rat.sub in
/-- **C3** counterexample: on a 1-sample buffer at 100 Hz with
`target_time = 0.005`, the search sub-range yields no profile points, so
the fallback returns `target_time = 0.005` unchanged — and `0.005` is *not*
an integer multiple of `1/100`, contradicting the claim that the returned
time is always sample-aligned (explicitly including the fallback path). -/
theorem C3_counterexample :
    findOptimalSplitPoint [0] 100 (1/200) 2 = 1/200 ∧
    ¬ (∃ k : ℤ, (1/200 : ℚ) = (k : ℚ) / 100) := by
  constructor
  · decide
  · rintro ⟨k, hk⟩
    have h1 : (2 : ℚ) * (k : ℚ) = 1 := by
      field_simp at hk
      linarith
    have h2 : (2 * k : ℤ) = 1 := by exact_mod_cast h1
    omega

/-- **C3** witness: the amended disjunction instantiated on the fallback
input. -/
theorem C3_locate_witness :
    findOptimalSplitPoint [0] 100 (1/200) 2 = 1/200 ∨
    ((∃ k : ℤ, findOptimalSplitPoint [0] 100 (1/200) 2 = (k : ℚ) / (100 : ℕ)) ∧
      max 0 ((1/200 : ℚ) - 2 / 2) - 1 / (2 * ((100 : ℕ) : ℚ)) ≤
        findOptimalSplitPoint [0] 100 (1/200) 2 ∧
      findOptimalSplitPoint [0] 100 (1/200) 2 ≤
        min ((([0] : List ℚ).length : ℚ) / ((100 : ℕ) : ℚ)) (1/200 + 2 / 2)) :=
  C3_locate [0] 100 (1/200) 2 (by norm_num) (by norm_num) (by norm_num)

/-! ## Claim C7 -/

/-- In non-smart mode with a whole-sample duration, the boundary walk lands
exactly on the multiples of the duration. -/
theorem buildPoints_exact (data : List ℚ) (sr : ℕ) (hsr : 0 < sr) (r : ℚ)
    (d : ℚ) (z : ℤ) (hz : d * sr = z) :
    ∀ (k : ℕ) (pos : ℚ) (m : ℤ), pos * sr = m →
    buildPoints (refineStep data sr false r) d k pos =
      (List.range k).map (fun (i : ℕ) => pos + ((i : ℚ) + 1) * d) := by
  intro k
  induction k with
  | zero => intro pos m hpos; rfl
  | succ k ih =>
      intro pos m hpos
      have hstep := refineStep_exact data sr hsr r pos d m z hpos hz
      have hnext : (pos + d) * (sr : ℚ) = ((m + z : ℤ) : ℚ) := by
        push_cast
        rw [add_mul, hpos, hz]
      simp only [buildPoints, hstep, ih (pos + d) (m + z) hnext]
      rw [List.range_succ_eq_map, List.map_cons, List.map_map]
      congr 1
      · norm_num
      · apply List.map_congr_left
        intro i _
        simp only [Function.comp_apply]
        push_cast
        ring

/-- **C7** (amended).  For every valid fixed-duration request
(`0 < segment_duration < total_duration`), smart or not, the number of
emitted segments equals `ceil(total_duration / segment_duration)`; with
`smart = false` the total emitted sample count equals the buffer length
*exactly* (so the sum of emitted segment durations equals `total_duration`
exactly, not merely within one sample); and a 882000-sample (20 s) buffer
at 44100 Hz with `fixed_duration = 3.0`, `smart = false` yields exactly the
7 segments `[0,132300), …, [793800,882000)` — the first 6 each exactly
3.000000 s and the last 2.0 s.  (The "within one sample period" bound for
`smart = true` is false, see the counterexample: a valid smart request can
emit two samples more than the buffer holds.) -/
theorem C7_fixed_counts (data : List ℚ) (sr : ℕ) (hsr : 0 < sr) (d r : ℚ)
    (smart : Bool) (hd : 0 < d) (hdt : d < (data.length : ℚ) / (sr : ℚ)) :
    ((splitAudioFixed data sr d smart r).ranges.length =
      (⌈(data.length : ℚ) / (sr : ℚ) / d⌉ : ℤ).toNat) ∧
    (smart = false →
      emittedSamples data (splitAudioFixed data sr d smart r) = data.length) ∧
    (data.length = 882000 → sr = 44100 → d = 3 → smart = false →
      (splitAudioFixed data sr d smart r).ranges =
        [(0, 132300), (132300, 264600), (264600, 396900), (396900, 529200),
          (529200, 661500), (661500, 793800), (793800, 882000)]) := by
  have hne : ¬ ((data.length : ℚ) / (sr : ℚ) ≤ d) := not_le.mpr hdt
  have hd0 : ¬ (d = 0) := ne_of_gt hd
  have htpos : 0 < (data.length : ℚ) / (sr : ℚ) := lt_trans hd hdt
  have hn1 : (1 : ℤ) ≤ ⌈(data.length : ℚ) / (sr : ℚ) / d⌉ :=
    Int.ceil_pos.mpr (div_pos htpos hd)
  refine ⟨?_, ?_, ?_⟩
  · simp only [splitAudioFixed, if_neg hne, if_neg hd0]
    rw [List.length_take, boundaryRanges_length]
    have hlen : (fixedSplitPoints data sr d smart r).length =
        ((⌈(data.length : ℚ) / (sr : ℚ) / d⌉ : ℤ) - 1).toNat + 2 := by
      simp [fixedSplitPoints, buildPoints_length]
    rw [hlen]
    omega
  · intro hsm
    subst hsm
    have hrec := fixed_reconstruct data sr hsr d r false hd hdt
      (fixed_chain_nonsmart data sr hsr d r hd.le)
    unfold emittedSamples
    rw [hrec]
  · intro hlen hsr44 hd3 hsm
    subst hsr44 hd3 hsm
    have hne' : ¬ ((data.length : ℚ) / ((44100 : ℕ) : ℚ) ≤ 3) := by
      rw [hlen]; norm_num
    have hn : (⌈(data.length : ℚ) / ((44100 : ℕ) : ℚ) / 3⌉ : ℤ) = 7 := by
      rw [hlen]; norm_num [Int.ceil_eq_iff]
    have hbp : buildPoints (refineStep data 44100 false r) 3 6 0 =
        (List.range 6).map (fun (i : ℕ) => 0 + ((i : ℚ) + 1) * 3) := by
      have := buildPoints_exact data 44100 (by norm_num) r 3 132300 (by norm_num) 6 0 0
        (by norm_num)
      simpa using this
    have hpts : fixedSplitPoints data 44100 3 false r =
        [0, 3, 6, 9, 12, 15, 18, 20] := by
      simp only [fixedSplitPoints]
      rw [hn]
      rw [show ((7 : ℤ) - 1).toNat = 6 from rfl, hbp]
      rw [show List.range 6 = [0, 1, 2, 3, 4, 5] from rfl]
      norm_num [hlen]
    simp only [splitAudioFixed, if_neg hne', if_neg (by norm_num : ¬ (3 : ℚ) = 0), hn, hpts]
    unfold boundaryRanges
    simp only [List.zip_cons_cons, List.tail_cons, List.map_cons, List.zip_nil_right,
      List.map_nil, hlen]
    norm_num [pyRound, round_eq]
    decide

/-- Buffer for the C7 counterexample: 195 samples at 800 Hz, all `1` except
a single `0` at index 46.  With `W = 8, step = 2` the two smart searches for
consecutive boundaries scan sample grids of opposite parity, so the second
finds a quieter off-grid window *before* the first boundary and the plan
steps backwards twice. -/
def smartCEData : List ℚ := List.replicate 46 1 ++ [0] ++ List.replicate 148 1

set_option maxRecDepth 100000 in
unseal Rat.add Rat.mul Rat.inv Rat.sub in
/-- **C7** counterexample: the valid smart request `segment_duration =
0.04875 s`, `search_range = 0.1 s` on the 195-sample buffer `smartCEData`
at 800 Hz emits 197 samples in total — two samples more than the buffer —
so the sum of emitted segment durations exceeds `total_duration` by two
sample periods, not at most one. -/
theorem C7_counterexample :
    (splitAudioFixed smartCEData 800 (39/800) true (1/10)).success = true ∧
    (0 : ℚ) < 39/800 ∧
    (39/800 : ℚ) < (smartCEData.length : ℚ) / ((800 : ℕ) : ℚ) ∧
    smartCEData.length = 195 ∧
    emittedSamples smartCEData (splitAudioFixed smartCEData 800 (39/800) true (1/10)) =
      197 := by
  refine ⟨by decide, by norm_num, by decide, by decide, by decide⟩

set_option maxRecDepth 10000 in
unseal Rat.add Rat.mul Rat.inv Rat.sub in
/-- **C7** witness: the 200-sample, 10 Hz buffer split at 3 s (non-smart)
yields `ceil(20/3) = 7` segments covering exactly 200 samples. -/
theorem C7_fixed_counts_witness :
    (splitAudioFixed (List.replicate 200 (0 : ℚ)) 10 3 false 2).ranges.length =
      (⌈((List.replicate 200 (0 : ℚ)).length : ℚ) / ((10 : ℕ) : ℚ) / 3⌉ : ℤ).toNat ∧
    emittedSamples (List.replicate 200 (0 : ℚ))
      (splitAudioFixed (List.replicate 200 (0 : ℚ)) 10 3 false 2) = 200 :=
  ⟨(C7_fixed_counts (List.replicate 200 (0 : ℚ)) 10 (by norm_num) 3 2 false (by norm_num)
      (by norm_num)).1,
   by
    have h := (C7_fixed_counts (List.replicate 200 (0 : ℚ)) 10 (by norm_num) 3 2 false
      (by norm_num) (by norm_num)).2.1 rfl
    simpa using h⟩

end AudioSplit
